import Mathlib

/-!
# Verification of the beancount2 web reporting core

Shallow embedding of `lib/python/beancount2/web/web.py` (the balance
iterator `iterate_with_balance`, the table-of-balances rendering, the view
cache of `handle_view`, and `compute_ids`), together with proofs of the
specification's claims about them.

The ledger data model (`Entry`, `Posting`) and the `Inventory` type live in
external collaborator modules (`beancount2.data`, `beancount2.inventory`)
that are not part of the shown source; those definitions are modelled from
the specification, as marked in their doc comments.  Everything else is a
direct translation of the Python source.
-/

namespace Beancount

/-! ## Data model -/

/-- Modelled from the spec: a `Lot` is a position's currency plus optional
cost-basis amount and optional acquisition date (`beancount2.data.Lot` is
external).  Positions with different lots never merge.  The cost amount is
modelled as an integer quantity together with its currency, dates as
naturals. -/
structure Lot where
  currency : String
  cost : Option (Int × String)
  lot_date : Option Nat
deriving DecidableEq, Repr

/-- Modelled from the spec: a position is a lot together with a signed
quantity (the source's `Decimal` quantity is modelled as `Int`). -/
structure Position where
  lot : Lot
  number : Int
deriving DecidableEq, Repr

/-- Modelled from the spec: an `Inventory` is a collection of positions
keyed by lot (`beancount2.inventory.Inventory` is external).  It is
represented as the list of its positions. -/
abbrev Inventory := List Position

/-- Modelled from the spec: `Inventory.add_position(pos, allow_merge=True)`.
A later position whose lot matches an earlier one merges with it (the
quantities add) rather than appending. -/
def addPosition (inv : Inventory) (pos : Position) : Inventory :=
  match inv with
  | [] => [pos]
  | p :: rest =>
    if p.lot = pos.lot then
      { lot := p.lot, number := p.number + pos.number } :: rest
    else
      p :: addPosition rest pos

/-- Add a list of postings' positions into an inventory, in order, with
lot-merging addition (the loop bodies of `iterate_with_balance`). -/
def addAllPositions (inv : Inventory) (ps : List Position) : Inventory :=
  ps.foldl addPosition inv

/-- The total quantity an inventory holds for a given lot (the
lot-indexed reading of an inventory; the canonical value an inventory
denotes at each lot). -/
def invLookup (inv : Inventory) (lot : Lot) : Int :=
  ((inv.filter (fun p => p.lot = lot)).map Position.number).sum

/-- Modelled from the spec: `Inventory.get_position(lot)` returns the
position held for the given lot, if any. -/
def getPosition (inv : Inventory) (lot : Lot) : Option Position :=
  inv.find? (fun p => p.lot = lot)

/-- Modelled from the spec: the `Entry` tagged union of
`beancount2.data` with variants Open, Close, Pad, Check, Transaction,
Event, Note, Price, each carrying its date (modelled as a natural) and a
representative payload. -/
inductive Entry where
  | Open (date : Nat) (account : String)
  | Close (date : Nat) (account : String)
  | Pad (date : Nat) (account : String)
  | Check (date : Nat) (account : String)
  | Transaction (date : Nat) (narration : String)
  | Event (date : Nat) (description : String)
  | Note (date : Nat) (comment : String)
  | Price (date : Nat) (currency : String)
deriving DecidableEq, Repr

/-- The common `date` attribute of every entry. -/
def Entry.date : Entry → Nat
  | .Open d _ => d
  | .Close d _ => d
  | .Pad d _ => d
  | .Check d _ => d
  | .Transaction d _ => d
  | .Event d _ => d
  | .Note d _ => d
  | .Price d _ => d

/-- Whether an entry is a Transaction. -/
def Entry.isTxn : Entry → Bool
  | .Transaction _ _ => true
  | _ => false

/-- Whether an entry is an Open directive. -/
def Entry.isOpen : Entry → Bool
  | .Open _ _ => true
  | _ => false

/-- Modelled from the spec: a `Posting` is one leg of a Transaction; it
carries a non-owning back-reference to its parent entry, an account name
and a position (`beancount2.data.Posting` is external; the optional price
and flag play no role in the verified functions). -/
structure Posting where
  entry : Entry
  account : String
  position : Position
deriving DecidableEq, Repr

/-- An element of the sequence handed to `iterate_with_balance`: either an
entry or a standalone `Posting` standing in for its parent transaction. -/
inductive Item where
  | entry (e : Entry)
  | posting (p : Posting)
deriving DecidableEq, Repr

/-- Lines 533-538 of `web.py`: resolve an item to the entry it stands for
and the posting it carries, if any. -/
def resolveItem : Item → Entry × Option Posting
  | .entry e => (e, none)
  | .posting p => (p.entry, some p)

/-- The standalone postings among a list of items, in order. -/
def itemPostings (items : List Item) : List Posting :=
  items.filterMap (fun i => match i with | .posting p => some p | .entry _ => none)

/-! ## iterate_with_balance (web.py lines 498-583) -/

/-- One record yielded by `iterate_with_balance`:
`(entry, grouped postings or null, change or null, running balance)`.
The balance field is total (never null), as in the source. -/
structure Record where
  entry : Entry
  postings : Option (List Posting)
  change : Option Inventory
  balance : Inventory
deriving DecidableEq, Repr

/-- The same-date buffer `date_entries`: pairs of an entry and its grouped
postings (or `none` for an entry buffered directly). -/
abbrev Bucket := List (Entry × Option (List Posting))

/-- Lines 559-568 of `web.py`: de-dup a standalone posting against the
buffer.  `index_key(date_entries, entry, key=first)` finds the first
buffered pair whose entry equals the posting's parent; if found the
posting is appended to that pair's posting list — appending to a pair
buffered with a null posting list is a Python `AttributeError`, modelled
as `none`.  If no pair matches, a fresh `(entry, [posting])` pair is
appended at the end. -/
def appendPosting : Bucket → Entry → Posting → Option Bucket
  | [], e, p => some [(e, some [p])]
  | (e', ps') :: rest, e, p =>
    if e' = e then
      match ps' with
      | some ps => some ((e', some (ps ++ [p])) :: rest)
      | none => none
    else
      (appendPosting rest e p).map (fun b => (e', ps') :: b)

/-- Lines 559-571 of `web.py`: buffer one scanned item into the same-date
buffer.  A posting is de-duped by parent entry; a plain entry is appended
with a null posting list. -/
def bufferItem (b : Bucket) (e : Entry) : Option Posting → Option Bucket
  | some p => appendPosting b e p
  | none => some (b ++ [(e, none)])

/-- Lines 544-554 / 574-582 of `web.py`: emit the record for one buffered
pair and thread the running balance.  A non-empty posting list produces a
`change` inventory and updates the balance; a null (or empty) posting list
produces a null change and leaves the balance untouched. -/
def flushOne (bal : Inventory) : Entry × Option (List Posting) → Record × Inventory
  | (e, some ps) =>
    if ps.isEmpty then
      ({ entry := e, postings := some ps, change := none, balance := bal }, bal)
    else
      let change := addAllPositions [] (ps.map Posting.position)
      let bal' := addAllPositions bal (ps.map Posting.position)
      ({ entry := e, postings := some ps, change := some change, balance := bal' }, bal')
  | (e, none) => ({ entry := e, postings := none, change := none, balance := bal }, bal)

/-- Flush a whole buffer in buffered order, threading the running
balance. -/
def flushBucket (bal : Inventory) : Bucket → List Record × Inventory
  | [] => ([], bal)
  | de :: rest =>
    let rb := flushOne bal de
    let rs := flushBucket rb.2 rest
    (rb.1 :: rs.1, rs.2)

/-- The scanning loop of `iterate_with_balance` (lines 531-583): state is
the running balance, the previous date and the same-date buffer.  On a
date change the buffer is flushed before the item is buffered; at end of
input the final buffer is flushed.  `none` models the Python exception
raised when a standalone posting is de-duped against a pair buffered with
a null posting list. -/
def iwbGo : Inventory → Option Nat → Bucket → List Item → Option (List Record)
  | bal, _, bucket, [] => some (flushBucket bal bucket).1
  | bal, prev, bucket, item :: rest =>
    let ep := resolveItem item
    if some ep.1.date ≠ prev then
      let rb := flushBucket bal bucket
      match bufferItem [] ep.1 ep.2 with
      | none => none
      | some b' =>
        match iwbGo rb.2 (some ep.1.date) b' rest with
        | none => none
        | some rs => some (rb.1 ++ rs)
    else
      match bufferItem bucket ep.1 ep.2 with
      | none => none
      | some b' => iwbGo bal prev b' rest

/-- `iterate_with_balance` (lines 498-583 of `web.py`): iterate over the
items accumulating the balance, yielding one record per buffered pair. -/
def iterate_with_balance (items : List Item) : Option (List Record) :=
  iwbGo [] none [] items

/-! ## Decomposition of the iterator into bucket collection and emission -/

/-- The postings grouped in one buffered pair (empty for a null list). -/
def pairPostings (de : Entry × Option (List Posting)) : List Posting :=
  de.2.getD []

/-- All postings buffered in a bucket, in buffered order. -/
def bucketPostings (b : Bucket) : List Posting :=
  (b.map pairPostings).flatten

/-- The change inventory a flushed pair carries, as a function of its
grouped postings. -/
def changeOf (ops : Option (List Posting)) : Option Inventory :=
  match ops with
  | some ps => if ps.isEmpty then none else some (addAllPositions [] (ps.map Posting.position))
  | none => none

/-- The buffering part of the scanning loop, without record emission:
returns the final previous-date, the final (unflushed) buffer, and the
buckets flushed so far in flush order. -/
def scanGo : Option Nat → Bucket → List Item → Option (Option Nat × Bucket × List Bucket)
  | prev, bucket, [] => some (prev, bucket, [])
  | prev, bucket, item :: rest =>
    let ep := resolveItem item
    if some ep.1.date ≠ prev then
      match bufferItem [] ep.1 ep.2 with
      | none => none
      | some b' => (scanGo (some ep.1.date) b' rest).map (fun t => (t.1, t.2.1, bucket :: t.2.2))
    else
      match bufferItem bucket ep.1 ep.2 with
      | none => none
      | some b' => scanGo prev b' rest

/-- The full sequence of buckets the loop flushes, including the final
flush of the remaining buffer at end of input. -/
def collect (prev : Option Nat) (bucket : Bucket) (items : List Item) :
    Option (List Bucket) :=
  (scanGo prev bucket items).map (fun t => t.2.2 ++ [t.2.1])

/-- Emit the records of a bucket sequence, threading the running balance
across buckets. -/
def emitAll (bal : Inventory) : List Bucket → List Record
  | [] => []
  | b :: bs =>
    let rb := flushBucket bal b
    rb.1 ++ emitAll rb.2 bs

/-! ### flushOne / flushBucket structure -/

theorem flushOne_entry (bal : Inventory) (de : Entry × Option (List Posting)) :
    (flushOne bal de).1.entry = de.1 := by
  rcases de with ⟨e, ps⟩
  cases ps with
  | none => rfl
  | some l => simp only [flushOne]; split <;> rfl

theorem flushOne_postings (bal : Inventory) (de : Entry × Option (List Posting)) :
    (flushOne bal de).1.postings = de.2 := by
  rcases de with ⟨e, ps⟩
  cases ps with
  | none => rfl
  | some l => simp only [flushOne]; split <;> rfl

theorem flushOne_balance_eq_snd (bal : Inventory) (de : Entry × Option (List Posting)) :
    (flushOne bal de).1.balance = (flushOne bal de).2 := by
  rcases de with ⟨e, ps⟩
  cases ps with
  | none => rfl
  | some l => simp only [flushOne]; split <;> rfl

theorem flushOne_snd (bal : Inventory) (de : Entry × Option (List Posting)) :
    (flushOne bal de).2 = addAllPositions bal ((pairPostings de).map Posting.position) := by
  rcases de with ⟨e, ps⟩
  cases ps with
  | none => rfl
  | some l =>
    simp only [flushOne]
    split
    · rename_i h
      simp only [pairPostings, Option.getD_some, List.isEmpty_iff.mp h]
      rfl
    · rfl

theorem flushOne_change (bal : Inventory) (de : Entry × Option (List Posting)) :
    (flushOne bal de).1.change = changeOf de.2 := by
  rcases de with ⟨e, ps⟩
  cases ps with
  | none => rfl
  | some l =>
    simp only [flushOne, changeOf]
    split <;> rename_i h <;> simp [h]

theorem flushBucket_shape (bal : Inventory) (b : Bucket) :
    (flushBucket bal b).1.map (fun r => (r.entry, r.postings)) = b := by
  induction b generalizing bal with
  | nil => rfl
  | cons de rest ih =>
    simp only [flushBucket, List.map_cons, flushOne_entry, flushOne_postings, ih]

theorem flushBucket_length (bal : Inventory) (b : Bucket) :
    (flushBucket bal b).1.length = b.length := by
  have h := flushBucket_shape bal b
  have := congrArg List.length h
  simpa using this

theorem flushBucket_change (bal : Inventory) (b : Bucket) :
    ∀ r ∈ (flushBucket bal b).1, r.change = changeOf r.postings := by
  induction b generalizing bal with
  | nil => intro r hr; simp [flushBucket] at hr
  | cons de rest ih =>
    intro r hr
    simp only [flushBucket, List.mem_cons] at hr
    rcases hr with h | h
    · subst h
      rw [flushOne_change, flushOne_postings]
    · exact ih _ r h

theorem flushBucket_append (bal : Inventory) (b1 b2 : Bucket) :
    flushBucket bal (b1 ++ b2) =
      ((flushBucket bal b1).1 ++ (flushBucket (flushBucket bal b1).2 b2).1,
       (flushBucket (flushBucket bal b1).2 b2).2) := by
  induction b1 generalizing bal with
  | nil => simp [flushBucket]
  | cons de rest ih =>
    simp only [List.cons_append, flushBucket, List.append_eq, ih]

theorem addAllPositions_append (bal : Inventory) (l1 l2 : List Position) :
    addAllPositions bal (l1 ++ l2) = addAllPositions (addAllPositions bal l1) l2 := by
  simp [addAllPositions, List.foldl_append]

theorem flushBucket_snd (bal : Inventory) (b : Bucket) :
    (flushBucket bal b).2 = addAllPositions bal ((bucketPostings b).map Posting.position) := by
  induction b generalizing bal with
  | nil => rfl
  | cons de rest ih =>
    simp only [flushBucket, ih, flushOne_snd, bucketPostings, List.map_cons, List.flatten_cons,
      List.map_append, addAllPositions_append]

theorem flushBucket_zero (bal : Inventory) (b : Bucket) :
    ∀ r, (flushBucket bal b).1[0]? = some r →
      r.balance = addAllPositions bal ((r.postings.getD []).map Posting.position) := by
  cases b with
  | nil => intro r hr; simp [flushBucket] at hr
  | cons de rest =>
    intro r hr
    simp only [flushBucket, List.getElem?_cons_zero, Option.some.injEq] at hr
    subst hr
    rw [flushOne_balance_eq_snd, flushOne_snd, flushOne_postings]
    rfl

theorem flushBucket_adjacent (bal : Inventory) (b : Bucket) :
    ∀ i r r', (flushBucket bal b).1[i]? = some r → (flushBucket bal b).1[i+1]? = some r' →
      r'.balance = addAllPositions r.balance ((r'.postings.getD []).map Posting.position) := by
  induction b generalizing bal with
  | nil => intro i r r' hr _; simp [flushBucket] at hr
  | cons de rest ih =>
    intro i r r' hr hr'
    cases i with
    | zero =>
      simp only [flushBucket, List.getElem?_cons_zero, Option.some.injEq] at hr
      simp only [flushBucket, List.getElem?_cons_succ] at hr'
      subst hr
      have := flushBucket_zero (flushOne bal de).2 rest r' hr'
      rw [this, flushOne_balance_eq_snd]
    | succ j =>
      simp only [flushBucket, List.getElem?_cons_succ] at hr hr'
      exact ih _ j r r' hr hr'

theorem flushBucket_getLast (bal : Inventory) (b : Bucket) :
    ∀ r, (flushBucket bal b).1.getLast? = some r → r.balance = (flushBucket bal b).2 := by
  induction b generalizing bal with
  | nil => intro r hr; simp [flushBucket] at hr
  | cons de rest ih =>
    intro r hr
    cases hrest : (flushBucket (flushOne bal de).2 rest).1 with
    | nil =>
      have hlen := flushBucket_length (flushOne bal de).2 rest
      rw [hrest] at hlen
      have : rest = [] := List.eq_nil_of_length_eq_zero hlen.symm
      subst this
      simp only [flushBucket, hrest, List.getLast?_singleton, Option.some.injEq] at hr
      subst hr
      simp [flushBucket, flushOne_balance_eq_snd]
    | cons r0 rs =>
      simp only [flushBucket] at hr ⊢
      rw [hrest, List.getLast?_cons_cons] at hr
      have := ih (flushOne bal de).2 r
      rw [hrest] at this
      exact this hr

theorem emitAll_eq_flatten (bal : Inventory) (bs : List Bucket) :
    emitAll bal bs = (flushBucket bal bs.flatten).1 := by
  induction bs generalizing bal with
  | nil => rfl
  | cons b rest ih =>
    simp only [emitAll, List.flatten_cons, flushBucket_append, ih]

theorem iwbGo_eq_collect (items : List Item) :
    ∀ bal prev bucket,
      iwbGo bal prev bucket items = (collect prev bucket items).map (emitAll bal) := by
  induction items with
  | nil =>
    intro bal prev bucket
    simp [iwbGo, collect, scanGo, emitAll]
  | cons item rest ih =>
    intro bal prev bucket
    simp only [iwbGo, collect, scanGo]
    split
    · cases hb : bufferItem [] (resolveItem item).1 (resolveItem item).2 with
      | none => rfl
      | some b' =>
        dsimp only
        rw [ih (flushBucket bal bucket).2 (some (resolveItem item).1.date) b']
        cases hs : scanGo (some (resolveItem item).1.date) b' rest with
        | none => simp [collect, hs]
        | some t => simp [collect, hs, emitAll]
    · cases hb : bufferItem bucket (resolveItem item).1 (resolveItem item).2 with
      | none => rfl
      | some b' => exact ih bal prev b'

theorem scanGo_append (xs ys : List Item) :
    ∀ prev bucket,
      scanGo prev bucket (xs ++ ys) =
        match scanGo prev bucket xs with
        | none => none
        | some t => (scanGo t.1 t.2.1 ys).map (fun u => (u.1, u.2.1, t.2.2 ++ u.2.2)) := by
  induction xs with
  | nil =>
    intro prev bucket
    simp only [List.nil_append, scanGo]
    cases scanGo prev bucket ys with
    | none => rfl
    | some u => rfl
  | cons x rest ih =>
    intro prev bucket
    simp only [List.cons_append, scanGo]
    split
    · cases hb : bufferItem [] (resolveItem x).1 (resolveItem x).2 with
      | none => rfl
      | some b' =>
        simp only [List.append_eq]
        rw [ih]
        cases hs : scanGo (some (resolveItem x).1.date) b' rest with
        | none => rfl
        | some t =>
          simp only [Option.map_some', Option.map_map]
          congr 1
    · cases hb : bufferItem bucket (resolveItem x).1 (resolveItem x).2 with
      | none => rfl
      | some b' =>
        simp only [List.append_eq]
        exact ih prev b'

/-! ### Conservation of buffered postings -/

/-- The posting an item contributes, as a list. -/
def optPostList : Option Posting → List Posting
  | some p => [p]
  | none => []

/-- The buffered entries (de-dup keys) of a bucket, in buffered order. -/
def bucketKeys (b : Bucket) : List Entry :=
  b.map Prod.fst

theorem itemPostings_cons (item : Item) (rest : List Item) :
    itemPostings (item :: rest) = optPostList (resolveItem item).2 ++ itemPostings rest := by
  cases item <;> rfl

theorem bucketPostings_append (b1 b2 : Bucket) :
    bucketPostings (b1 ++ b2) = bucketPostings b1 ++ bucketPostings b2 := by
  simp [bucketPostings]

theorem bucketPostings_flatten (bs : List Bucket) :
    bucketPostings bs.flatten = (bs.map bucketPostings).flatten := by
  induction bs with
  | nil => rfl
  | cons b rest ih => simp [bucketPostings_append, ih]

theorem appendPosting_postings (b : Bucket) (e : Entry) (p : Posting) :
    ∀ b', appendPosting b e p = some b' →
      List.Perm (bucketPostings b') (bucketPostings b ++ [p]) := by
  induction b with
  | nil =>
    intro b' h
    simp only [appendPosting, Option.some.injEq] at h
    subst h
    simp [bucketPostings, pairPostings]
  | cons de rest ih =>
    intro b' h
    rcases de with ⟨e', ps'⟩
    simp only [appendPosting] at h
    split at h
    · rename_i heq
      cases ps' with
      | none => exact absurd h (by simp)
      | some ps =>
        simp only [Option.some.injEq] at h
        subst h
        simp only [bucketPostings, List.map_cons, List.flatten_cons, pairPostings,
          Option.getD_some, List.append_assoc]
        exact (List.Perm.append_left ps (List.perm_append_comm.trans (List.Perm.append_left _ (List.Perm.refl _))))
    · cases hrec : appendPosting rest e p with
      | none => rw [hrec] at h; exact absurd h (by simp)
      | some b'' =>
        rw [hrec] at h
        simp only [Option.map_some', Option.some.injEq] at h
        subst h
        simp only [bucketPostings, List.map_cons, List.flatten_cons, List.append_assoc]
        exact List.Perm.append_left _ (ih b'' hrec)

theorem bufferItem_postings (b : Bucket) (e : Entry) (po : Option Posting) :
    ∀ b', bufferItem b e po = some b' →
      List.Perm (bucketPostings b') (bucketPostings b ++ optPostList po) := by
  cases po with
  | some p => exact appendPosting_postings b e p
  | none =>
    intro b' h
    simp only [bufferItem, Option.some.injEq] at h
    subst h
    simp [bucketPostings_append, bucketPostings, pairPostings, optPostList]

theorem scanGo_postings (items : List Item) :
    ∀ prev bucket t, scanGo prev bucket items = some t →
      List.Perm ((t.2.2.map bucketPostings).flatten ++ bucketPostings t.2.1)
        (bucketPostings bucket ++ itemPostings items) := by
  induction items with
  | nil =>
    intro prev bucket t h
    simp only [scanGo, Option.some.injEq] at h
    subst h
    simp [itemPostings]
  | cons item rest ih =>
    intro prev bucket t h
    simp only [scanGo] at h
    rw [itemPostings_cons]
    split at h
    · cases hb : bufferItem [] (resolveItem item).1 (resolveItem item).2 with
      | none => rw [hb] at h; exact absurd h (by simp)
      | some b' =>
        rw [hb] at h
        dsimp only at h
        cases hs : scanGo (some (resolveItem item).1.date) b' rest with
        | none => rw [hs] at h; exact absurd h (by simp)
        | some t0 =>
          rw [hs] at h
          simp only [Option.map_some', Option.some.injEq] at h
          subst h
          have hih := ih _ _ _ hs
          have hbp := bufferItem_postings [] _ _ _ hb
          simp only [bucketPostings, List.map_nil, List.flatten_nil,
            List.nil_append] at hbp
          simp only [List.map_cons, List.flatten_cons, List.append_assoc]
          refine List.Perm.append_left _ ?_
          exact hih.trans (List.Perm.append_right _ hbp)
    · cases hb : bufferItem bucket (resolveItem item).1 (resolveItem item).2 with
      | none => rw [hb] at h; exact absurd h (by simp)
      | some b' =>
        rw [hb] at h
        dsimp only at h
        have hih := ih _ _ _ h
        have hbp := bufferItem_postings bucket _ _ _ hb
        refine hih.trans ?_
        refine (List.Perm.append_right _ hbp).trans ?_
        simp [List.append_assoc]

/-! ### Lot-indexed reading of inventories -/

theorem invLookup_nil (lot : Lot) : invLookup [] lot = 0 := rfl

theorem invLookup_cons (p : Position) (l : List Position) (lot : Lot) :
    invLookup (p :: l) lot = (if p.lot = lot then p.number else 0) + invLookup l lot := by
  by_cases hp : p.lot = lot
  · simp [invLookup, List.filter_cons, hp]
  · simp [invLookup, List.filter_cons, hp]

theorem addPosition_lookup (inv : Inventory) (pos : Position) (lot : Lot) :
    invLookup (addPosition inv pos) lot =
      invLookup inv lot + (if pos.lot = lot then pos.number else 0) := by
  induction inv with
  | nil => simp [addPosition, invLookup_cons, invLookup_nil]
  | cons p rest ih =>
    simp only [addPosition]
    split
    · rename_i hpl
      rw [invLookup_cons, invLookup_cons]
      by_cases hl : p.lot = lot
      · have hl2 : pos.lot = lot := hpl.symm.trans hl
        simp [hl, hl2]
        omega
      · have hl2 : pos.lot ≠ lot := fun hc => hl (hpl.trans hc)
        simp [hl, hl2]
    · rename_i hpl
      rw [invLookup_cons, invLookup_cons, ih]
      omega

theorem addAllPositions_lookup (l : List Position) :
    ∀ bal lot, invLookup (addAllPositions bal l) lot = invLookup bal lot + invLookup l lot := by
  induction l with
  | nil => intro bal lot; simp [addAllPositions, invLookup_nil]
  | cons p rest ih =>
    intro bal lot
    have hstep : addAllPositions bal (p :: rest) = addAllPositions (addPosition bal p) rest := rfl
    rw [hstep, ih, addPosition_lookup, invLookup_cons]
    omega

theorem invLookup_perm {l1 l2 : List Position} (h : List.Perm l1 l2) (lot : Lot) :
    invLookup l1 lot = invLookup l2 lot := by
  unfold invLookup
  exact ((h.filter _).map _).sum_eq

/-! ## Claim C1: balance accumulation -/

/-- C1: for every finite input sequence of entries and standalone postings
given to `iterate_with_balance` that it fully consumes, the running
balance carried by the last emitted record equals (at every lot) the sum
of all the standalone postings' positions added into one inventory with
lot-merging addition, taken in input order — so the order in which records
are emitted does not change the final total. -/
theorem c1_balance_accumulation (items : List Item) (recs : List Record) (r : Record)
    (hrun : iterate_with_balance items = some recs)
    (hlast : recs.getLast? = some r) (lot : Lot) :
    invLookup r.balance lot =
      invLookup (addAllPositions [] ((itemPostings items).map Posting.position)) lot := by
  rw [iterate_with_balance, iwbGo_eq_collect] at hrun
  cases hc : collect none [] items with
  | none => rw [hc] at hrun; exact absurd hrun (by simp)
  | some bs =>
    rw [hc] at hrun
    simp only [Option.map_some', Option.some.injEq] at hrun
    subst hrun
    rw [emitAll_eq_flatten] at hlast
    have hbal := flushBucket_getLast [] bs.flatten r hlast
    rw [flushBucket_snd] at hbal
    -- the buffered postings across all buckets are a permutation of the
    -- standalone postings of the input
    rw [collect] at hc
    cases hscan : scanGo none [] items with
    | none => rw [hscan] at hc; exact absurd hc (by simp)
    | some t =>
      rw [hscan] at hc
      simp only [Option.map_some', Option.some.injEq] at hc
      have hperm := scanGo_postings items none [] t hscan
      rw [show bucketPostings ([] : Bucket) = [] from rfl, List.nil_append] at hperm
      have hflat : bucketPostings bs.flatten = (t.2.2.map bucketPostings).flatten ++ bucketPostings t.2.1 := by
        subst hc
        rw [bucketPostings_flatten, List.map_append, List.flatten_append]
        simp [bucketPostings]
      have hlook := invLookup_perm (List.Perm.map Posting.position hperm) lot
      rw [hbal, hflat, addAllPositions_lookup, addAllPositions_lookup, invLookup_nil, hlook]

/-- Witness for C1 at a concrete input: two standalone postings of one
transaction in the same currency merge into a single zero position. -/
theorem c1_balance_accumulation_witness :
    invLookup
      (Record.mk (Entry.Transaction 5 "pay")
        (some [Posting.mk (Entry.Transaction 5 "pay") "A" ⟨⟨"USD", none, none⟩, 100⟩,
               Posting.mk (Entry.Transaction 5 "pay") "B" ⟨⟨"USD", none, none⟩, -100⟩])
        (some [⟨⟨"USD", none, none⟩, 0⟩]) [⟨⟨"USD", none, none⟩, 0⟩]).balance
      ⟨"USD", none, none⟩ =
    invLookup
      (addAllPositions []
        ((itemPostings
          [Item.posting (Posting.mk (Entry.Transaction 5 "pay") "A" ⟨⟨"USD", none, none⟩, 100⟩),
           Item.posting (Posting.mk (Entry.Transaction 5 "pay") "B" ⟨⟨"USD", none, none⟩, -100⟩)]).map
          Posting.position))
      ⟨"USD", none, none⟩ :=
  c1_balance_accumulation
    [Item.posting (Posting.mk (Entry.Transaction 5 "pay") "A" ⟨⟨"USD", none, none⟩, 100⟩),
     Item.posting (Posting.mk (Entry.Transaction 5 "pay") "B" ⟨⟨"USD", none, none⟩, -100⟩)]
    [Record.mk (Entry.Transaction 5 "pay")
      (some [Posting.mk (Entry.Transaction 5 "pay") "A" ⟨⟨"USD", none, none⟩, 100⟩,
             Posting.mk (Entry.Transaction 5 "pay") "B" ⟨⟨"USD", none, none⟩, -100⟩])
      (some [⟨⟨"USD", none, none⟩, 0⟩]) [⟨⟨"USD", none, none⟩, 0⟩]]
    (Record.mk (Entry.Transaction 5 "pay")
      (some [Posting.mk (Entry.Transaction 5 "pay") "A" ⟨⟨"USD", none, none⟩, 100⟩,
             Posting.mk (Entry.Transaction 5 "pay") "B" ⟨⟨"USD", none, none⟩, -100⟩])
      (some [⟨⟨"USD", none, none⟩, 0⟩]) [⟨⟨"USD", none, none⟩, 0⟩])
    (by decide) (by decide) ⟨"USD", none, none⟩

/-! ## Claim C6: null change for postingless records -/

/-- A successful run of the iterator is the pair-by-pair flush of the
buckets the scanning loop forms. -/
theorem iterate_records (items : List Item) (recs : List Record)
    (h : iterate_with_balance items = some recs) :
    ∃ bs, collect none [] items = some bs ∧ recs = (flushBucket [] bs.flatten).1 := by
  rw [iterate_with_balance, iwbGo_eq_collect] at h
  cases hc : collect none [] items with
  | none => rw [hc] at h; exact absurd h (by simp)
  | some bs =>
    rw [hc] at h
    simp only [Option.map_some', Option.some.injEq] at h
    exact ⟨bs, rfl, by rw [← h, emitAll_eq_flatten]⟩

/-- C6: every record of `iterate_with_balance` that was buffered without
postings (any entry buffered directly, e.g. Open/Close/Note) carries a
null `change`, and emitting it leaves the running balance unchanged: its
balance equals the previous record's balance (the initial empty balance
for the first record).  Every record's balance field is non-null by
construction (`Record.balance` is total). -/
theorem c6_null_change (items : List Item) (recs : List Record)
    (h : iterate_with_balance items = some recs)
    (i : Nat) (r : Record) (hr : recs[i]? = some r) (hnull : r.postings = none) :
    r.change = none ∧
      (i = 0 → r.balance = []) ∧
      (∀ j r', i = j + 1 → recs[j]? = some r' → r.balance = r'.balance) := by
  obtain ⟨bs, _, hrecs⟩ := iterate_records items recs h
  subst hrecs
  refine ⟨?_, ?_, ?_⟩
  · have hmem : r ∈ (flushBucket [] bs.flatten).1 := List.getElem?_mem hr
    have := flushBucket_change [] bs.flatten r hmem
    rw [this, hnull]
    rfl
  · intro hi
    subst hi
    have := flushBucket_zero [] bs.flatten r hr
    rw [this, hnull]
    rfl
  · intro j r' hi hr'
    subst hi
    have := flushBucket_adjacent [] bs.flatten j r' r hr' hr
    rw [this, hnull]
    rfl

/-- Witness for C6 at a concrete input: an Open entry followed by a
same-date Note; both records carry a null change and the empty balance. -/
theorem c6_null_change_witness :
    (Record.mk (Entry.Note 1 "memo") none none []).change = none ∧
      (1 = 0 → (Record.mk (Entry.Note 1 "memo") none none []).balance = []) ∧
      (∀ j r', 1 = j + 1 →
        [Record.mk (Entry.Open 1 "Assets:Bank") none none [],
         Record.mk (Entry.Note 1 "memo") none none []][j]? = some r' →
        (Record.mk (Entry.Note 1 "memo") none none []).balance = r'.balance) :=
  c6_null_change
    [Item.entry (Entry.Open 1 "Assets:Bank"), Item.entry (Entry.Note 1 "memo")]
    [Record.mk (Entry.Open 1 "Assets:Bank") none none [],
     Record.mk (Entry.Note 1 "memo") none none []]
    (by decide) 1 (Record.mk (Entry.Note 1 "memo") none none []) (by decide) (by decide)

/-! ### How buffering treats pairs of other keys -/

theorem appendPosting_mem_ne (b : Bucket) (e : Entry) (p : Posting) :
    ∀ b', appendPosting b e p = some b' →
      ∀ de ∈ b', de.1 ≠ e → de ∈ b := by
  induction b with
  | nil =>
    intro b' h de hde hne
    simp only [appendPosting, Option.some.injEq] at h
    subst h
    simp only [List.mem_singleton] at hde
    subst hde
    exact absurd rfl hne
  | cons de0 rest ih =>
    intro b' h de hde hne
    rcases de0 with ⟨e', ps'⟩
    simp only [appendPosting] at h
    split at h
    · rename_i heq
      cases ps' with
      | none => exact absurd h (by simp)
      | some ps =>
        simp only [Option.some.injEq] at h
        subst h
        rcases List.mem_cons.mp hde with h1 | h1
        · subst h1; exact absurd heq hne
        · exact List.mem_cons_of_mem _ h1
    · cases hrec : appendPosting rest e p with
      | none => rw [hrec] at h; exact absurd h (by simp)
      | some b'' =>
        rw [hrec] at h
        simp only [Option.map_some', Option.some.injEq] at h
        subst h
        rcases List.mem_cons.mp hde with h1 | h1
        · subst h1; exact List.mem_cons_self _ _
        · exact List.mem_cons_of_mem _ (ih b'' hrec de h1 hne)

theorem appendPosting_mem_preserved (b : Bucket) (e : Entry) (p : Posting) :
    ∀ b', appendPosting b e p = some b' →
      ∀ de ∈ b, de.1 ≠ e → de ∈ b' := by
  induction b with
  | nil => intro b' _ de hde _; simp at hde
  | cons de0 rest ih =>
    intro b' h de hde hne
    rcases de0 with ⟨e', ps'⟩
    simp only [appendPosting] at h
    split at h
    · rename_i heq
      cases ps' with
      | none => exact absurd h (by simp)
      | some ps =>
        simp only [Option.some.injEq] at h
        subst h
        rcases List.mem_cons.mp hde with h1 | h1
        · rw [h1] at hne; exact absurd heq hne
        · exact List.mem_cons_of_mem _ h1
    · cases hrec : appendPosting rest e p with
      | none => rw [hrec] at h; exact absurd h (by simp)
      | some b'' =>
        rw [hrec] at h
        simp only [Option.map_some', Option.some.injEq] at h
        subst h
        rcases List.mem_cons.mp hde with h1 | h1
        · subst h1; exact List.mem_cons_self _ _
        · exact List.mem_cons_of_mem _ (ih b'' hrec de h1 hne)

/-- The predicate selecting buffered pairs keyed by a given entry. -/
def keyIs (T : Entry) (de : Entry × Option (List Posting)) : Bool :=
  decide (de.1 = T)

theorem appendPosting_filter_ne (b : Bucket) (e : Entry) (p : Posting) (T : Entry)
    (hne : e ≠ T) :
    ∀ b', appendPosting b e p = some b' →
      b'.filter (keyIs T) = b.filter (keyIs T) := by
  induction b with
  | nil =>
    intro b' h
    simp only [appendPosting, Option.some.injEq] at h
    subst h
    simp [keyIs, hne]
  | cons de0 rest ih =>
    intro b' h
    rcases de0 with ⟨e', ps'⟩
    simp only [appendPosting] at h
    split at h
    · rename_i heq
      cases ps' with
      | none => exact absurd h (by simp)
      | some ps =>
        simp only [Option.some.injEq] at h
        subst h
        have : (e' = T) = False := by
          subst heq
          exact eq_false hne
        simp [List.filter_cons, keyIs, this]
    · cases hrec : appendPosting rest e p with
      | none => rw [hrec] at h; exact absurd h (by simp)
      | some b'' =>
        rw [hrec] at h
        simp only [Option.map_some', Option.some.injEq] at h
        subst h
        simp only [List.filter_cons, ih b'' hrec]

theorem appendPosting_notfound (b : Bucket) (e : Entry) (p : Posting)
    (hno : ∀ de ∈ b, de.1 ≠ e) :
    appendPosting b e p = some (b ++ [(e, some [p])]) := by
  induction b with
  | nil => rfl
  | cons de0 rest ih =>
    rcases de0 with ⟨e', ps'⟩
    have hne : e' ≠ e := hno (e', ps') (List.mem_cons_self _ _)
    simp only [appendPosting, if_neg hne]
    rw [ih (fun de hde => hno de (List.mem_cons_of_mem _ hde))]
    rfl

theorem appendPosting_found (B0 : Bucket) (T : Entry) (acc : List Posting) (q : Posting)
    (hno : ∀ de ∈ B0, de.1 ≠ T) :
    appendPosting (B0 ++ [(T, some acc)]) T q = some (B0 ++ [(T, some (acc ++ [q]))]) := by
  induction B0 with
  | nil => simp [appendPosting]
  | cons de0 rest ih =>
    rcases de0 with ⟨e', ps'⟩
    have hne : e' ≠ T := hno (e', ps') (List.mem_cons_self _ _)
    simp only [List.cons_append, appendPosting, if_neg hne, List.append_eq]
    rw [ih (fun de hde => hno de (List.mem_cons_of_mem _ hde))]
    rfl

theorem bufferItem_mem_ne (b : Bucket) (e : Entry) (po : Option Posting) :
    ∀ b', bufferItem b e po = some b' →
      ∀ de ∈ b', de.1 ≠ e → de ∈ b := by
  cases po with
  | some p => exact appendPosting_mem_ne b e p
  | none =>
    intro b' h de hde hne
    simp only [bufferItem, Option.some.injEq] at h
    subst h
    rcases List.mem_append.mp hde with h1 | h1
    · exact h1
    · simp only [List.mem_singleton] at h1
      subst h1
      exact absurd rfl hne

theorem bufferItem_mem_preserved (b : Bucket) (e : Entry) (po : Option Posting) :
    ∀ b', bufferItem b e po = some b' →
      ∀ de ∈ b, de.1 ≠ e → de ∈ b' := by
  cases po with
  | some p => exact appendPosting_mem_preserved b e p
  | none =>
    intro b' h de hde _
    simp only [bufferItem, Option.some.injEq] at h
    subst h
    exact List.mem_append_left _ hde

theorem bufferItem_filter_ne (b : Bucket) (e : Entry) (po : Option Posting) (T : Entry)
    (hne : e ≠ T) :
    ∀ b', bufferItem b e po = some b' →
      b'.filter (keyIs T) = b.filter (keyIs T) := by
  cases po with
  | some p => exact appendPosting_filter_ne b e p T hne
  | none =>
    intro b' h
    simp only [bufferItem, Option.some.injEq] at h
    subst h
    simp [List.filter_append, keyIs, hne]

/-! ### scanGo invariants -/

/-- All pairs a scan state holds: flushed buckets first, current buffer
last. -/
def scanPairs (t : Option Nat × Bucket × List Bucket) : Bucket :=
  t.2.2.flatten ++ t.2.1

theorem collect_scan (prev : Option Nat) (bucket : Bucket) (items : List Item)
    (bs : List Bucket) (hc : collect prev bucket items = some bs) :
    ∃ t, scanGo prev bucket items = some t ∧ bs = t.2.2 ++ [t.2.1] := by
  rw [collect] at hc
  cases hs : scanGo prev bucket items with
  | none => rw [hs] at hc; exact absurd hc (by simp)
  | some t =>
    rw [hs] at hc
    simp only [Option.map_some', Option.some.injEq] at hc
    exact ⟨t, rfl, hc.symm⟩

theorem scanGo_filter_keyIs (T : Entry) (items : List Item) :
    ∀ prev bucket t, scanGo prev bucket items = some t →
      (∀ it ∈ items, (resolveItem it).1 ≠ T) →
      (scanPairs t).filter (keyIs T) = bucket.filter (keyIs T) := by
  induction items with
  | nil =>
    intro prev bucket t h _
    simp only [scanGo, Option.some.injEq] at h
    subst h
    simp [scanPairs]
  | cons item rest ih =>
    intro prev bucket t h hno
    have hitem : (resolveItem item).1 ≠ T := hno item (List.mem_cons_self _ _)
    have hrest : ∀ it ∈ rest, (resolveItem it).1 ≠ T :=
      fun it hit => hno it (List.mem_cons_of_mem _ hit)
    simp only [scanGo] at h
    split at h
    · cases hb : bufferItem [] (resolveItem item).1 (resolveItem item).2 with
      | none => rw [hb] at h; exact absurd h (by simp)
      | some b' =>
        rw [hb] at h
        dsimp only at h
        cases hs : scanGo (some (resolveItem item).1.date) b' rest with
        | none => rw [hs] at h; exact absurd h (by simp)
        | some t0 =>
          rw [hs] at h
          simp only [Option.map_some', Option.some.injEq] at h
          subst h
          have hb' : b'.filter (keyIs T) = [] :=
            (bufferItem_filter_ne [] _ _ T (fun hc => hitem hc) b' hb).trans rfl
          have hih := ih _ _ _ hs hrest
          simp only [scanPairs, List.flatten_cons, List.append_assoc, List.filter_append]
          simp only [scanPairs, List.filter_append] at hih
          rw [hih, hb']
          simp
    · cases hb : bufferItem bucket (resolveItem item).1 (resolveItem item).2 with
      | none => rw [hb] at h; exact absurd h (by simp)
      | some b' =>
        rw [hb] at h
        dsimp only at h
        have hih := ih _ _ _ h hrest
        rw [hih, bufferItem_filter_ne bucket _ _ T (fun hc => hitem hc) b' hb]

theorem scanGo_snd_none (T : Entry) (items : List Item) :
    ∀ prev bucket t, scanGo prev bucket items = some t →
      (∀ it ∈ items, ∀ p, (resolveItem it).2 = some p → p.entry ≠ T) →
      (∀ de ∈ bucket, de.1 = T → de.2 = none) →
      ∀ de ∈ scanPairs t, de.1 = T → de.2 = none := by
  induction items with
  | nil =>
    intro prev bucket t h _ hbuck
    simp only [scanGo, Option.some.injEq] at h
    subst h
    simpa [scanPairs] using hbuck
  | cons item rest ih =>
    intro prev bucket t h hno hbuck
    have hrest : ∀ it ∈ rest, ∀ p, (resolveItem it).2 = some p → p.entry ≠ T :=
      fun it hit => hno it (List.mem_cons_of_mem _ hit)
    -- buffering the scanned item into any buffer preserves the invariant
    have hstep : ∀ b b', bufferItem b (resolveItem item).1 (resolveItem item).2 = some b' →
        (∀ de ∈ b, de.1 = T → de.2 = none) →
        ∀ de ∈ b', de.1 = T → de.2 = none := by
      intro b b' hb hbI de hde hdeT
      cases hpo : (resolveItem item).2 with
      | none =>
        rw [hpo] at hb
        simp only [bufferItem, Option.some.injEq] at hb
        subst hb
        rcases List.mem_append.mp hde with h1 | h1
        · exact hbI de h1 hdeT
        · simp only [List.mem_singleton] at h1
          subst h1
          rfl
      | some p =>
        rw [hpo] at hb
        have hpT : p.entry ≠ T := hno item (List.mem_cons_self _ _) p hpo
        have hpe : (resolveItem item).1 = p.entry := by
          cases item with
          | entry e => simp [resolveItem] at hpo
          | posting p0 =>
            simp only [resolveItem, Option.some.injEq] at hpo
            subst hpo
            rfl
        have hne : de.1 ≠ (resolveItem item).1 := by
          rw [hpe, hdeT]
          exact fun hc => hpT hc.symm
        exact hbI de (appendPosting_mem_ne b _ p b' hb de hde hne) hdeT
    simp only [scanGo] at h
    split at h
    · cases hb : bufferItem [] (resolveItem item).1 (resolveItem item).2 with
      | none => rw [hb] at h; exact absurd h (by simp)
      | some b' =>
        rw [hb] at h
        dsimp only at h
        cases hs : scanGo (some (resolveItem item).1.date) b' rest with
        | none => rw [hs] at h; exact absurd h (by simp)
        | some t0 =>
          rw [hs] at h
          simp only [Option.map_some', Option.some.injEq] at h
          subst h
          intro de hde hdeT
          simp only [scanPairs, List.flatten_cons, List.append_assoc, List.mem_append] at hde
          rcases hde with h1 | h1
          · exact hbuck de h1 hdeT
          · have hb' := hstep [] b' hb (by simp)
            have := ih _ _ _ hs hrest hb'
            exact this de (by simpa [scanPairs, List.mem_append] using h1) hdeT
    · cases hb : bufferItem bucket (resolveItem item).1 (resolveItem item).2 with
      | none => rw [hb] at h; exact absurd h (by simp)
      | some b' =>
        rw [hb] at h
        dsimp only at h
        exact ih _ _ _ h hrest (hstep bucket b' hb hbuck)

theorem scanGo_mem_preserved (items : List Item) :
    ∀ prev bucket t de, scanGo prev bucket items = some t →
      de ∈ bucket →
      (∀ it ∈ items, ∀ p, (resolveItem it).2 = some p → p.entry ≠ de.1) →
      de ∈ scanPairs t := by
  induction items with
  | nil =>
    intro prev bucket t de h hde _
    simp only [scanGo, Option.some.injEq] at h
    subst h
    simpa [scanPairs] using hde
  | cons item rest ih =>
    intro prev bucket t de h hde hno
    have hrest : ∀ it ∈ rest, ∀ p, (resolveItem it).2 = some p → p.entry ≠ de.1 :=
      fun it hit => hno it (List.mem_cons_of_mem _ hit)
    simp only [scanGo] at h
    split at h
    · cases hb : bufferItem [] (resolveItem item).1 (resolveItem item).2 with
      | none => rw [hb] at h; exact absurd h (by simp)
      | some b' =>
        rw [hb] at h
        dsimp only at h
        cases hs : scanGo (some (resolveItem item).1.date) b' rest with
        | none => rw [hs] at h; exact absurd h (by simp)
        | some t0 =>
          rw [hs] at h
          simp only [Option.map_some', Option.some.injEq] at h
          subst h
          simp only [scanPairs, List.flatten_cons, List.append_assoc, List.mem_append]
          exact Or.inl hde
    · cases hb : bufferItem bucket (resolveItem item).1 (resolveItem item).2 with
      | none => rw [hb] at h; exact absurd h (by simp)
      | some b' =>
        rw [hb] at h
        dsimp only at h
        have hmem : de ∈ b' := by
          cases hpo : (resolveItem item).2 with
          | none =>
            rw [hpo] at hb
            simp only [bufferItem, Option.some.injEq] at hb
            subst hb
            exact List.mem_append_left _ hde
          | some p =>
            rw [hpo] at hb
            have hpe : (resolveItem item).1 = p.entry := by
              cases item with
              | entry e => simp [resolveItem] at hpo
              | posting p0 =>
                simp only [resolveItem, Option.some.injEq] at hpo
                subst hpo
                rfl
            have hne : de.1 ≠ (resolveItem item).1 := by
              rw [hpe]
              exact fun hc => hno item (List.mem_cons_self _ _) p hpo hc.symm
            exact appendPosting_mem_preserved bucket _ p b' hb de hde hne
        exact ih _ _ _ de h hmem hrest

/-! ## Claim C10: transactions appearing directly as entries -/

/-- C10: when a Transaction appears directly as an entry (and none of its
postings appear as standalone items), `iterate_with_balance` buffers it
with a null posting list: it is emitted (at least one record carries it),
and every record carrying it has `postings = none`, `change = none`, and a
balance equal to the previous record's balance (the initial empty balance
for the first record) — regardless of the positions the transaction's own
postings hold. -/
theorem c10_direct_transaction (items : List Item) (T : Entry) (recs : List Record)
    (hT : T.isTxn = true)
    (hmem : Item.entry T ∈ items)
    (hnopost : ∀ p : Posting, Item.posting p ∈ items → p.entry ≠ T)
    (h : iterate_with_balance items = some recs) :
    (∃ r ∈ recs, r.entry = T ∧ r.postings = none) ∧
      ∀ i r, recs[i]? = some r → r.entry = T →
        r.postings = none ∧ r.change = none ∧
          (i = 0 → r.balance = []) ∧
          (∀ j r', i = j + 1 → recs[j]? = some r' → r.balance = r'.balance) := by
  obtain ⟨bs, hc, hrecs⟩ := iterate_records items recs h
  obtain ⟨t, hscan, hbs⟩ := collect_scan none [] items bs hc
  have hflat : bs.flatten = scanPairs t := by
    subst hbs; simp [scanPairs]
  have hshape : recs.map (fun r => (r.entry, r.postings)) = scanPairs t := by
    rw [hrecs, flushBucket_shape, hflat]
  have hno : ∀ it ∈ items, ∀ p, (resolveItem it).2 = some p → p.entry ≠ T := by
    intro it hit p hp
    cases it with
    | entry e => simp [resolveItem] at hp
    | posting p0 =>
      simp only [resolveItem, Option.some.injEq] at hp
      subst hp
      exact hnopost _ hit
  -- the pairs keyed by T all carry a null posting list
  have hsnd : ∀ de ∈ scanPairs t, de.1 = T → de.2 = none :=
    scanGo_snd_none T items none [] t hscan hno (by simp)
  -- the pair (T, none) is present in the final pairs
  have hpair : ((T, none) : Entry × Option (List Posting)) ∈ scanPairs t := by
    obtain ⟨l1, l2, hsplit⟩ := List.append_of_mem hmem
    subst hsplit
    rw [scanGo_append] at hscan
    cases hs1 : scanGo none [] l1 with
    | none => rw [hs1] at hscan; exact absurd hscan (by simp)
    | some t1 =>
      rw [hs1] at hscan
      dsimp only at hscan
      have hno2 : ∀ it ∈ l2, ∀ p, (resolveItem it).2 = some p → p.entry ≠ T :=
        fun it hit => hno it (by simp [hit])
      simp only [scanGo, resolveItem] at hscan
      split at hscan
      · -- flush: the fresh buffer starts with the pair (T, none)
        simp only [bufferItem, List.nil_append] at hscan
        cases hw : scanGo (some (Entry.date T)) [(T, none)] l2 with
        | none => rw [hw] at hscan; exact absurd hscan (by simp)
        | some w =>
          rw [hw] at hscan
          simp only [Option.map_some', Option.some.injEq] at hscan
          have hmemw := scanGo_mem_preserved l2 _ _ w (T, none) hw (by simp) hno2
          rw [← hscan]
          simp only [scanPairs, List.flatten_append, List.flatten_cons,
            List.mem_append] at hmemw ⊢
          tauto
      · -- no flush: the pair (T, none) is appended to the current buffer
        simp only [bufferItem] at hscan
        cases hw : scanGo t1.1 (t1.2.1 ++ [(T, none)]) l2 with
        | none => rw [hw] at hscan; exact absurd hscan (by simp)
        | some w =>
          rw [hw] at hscan
          simp only [Option.map_some', Option.some.injEq] at hscan
          have hmemw := scanGo_mem_preserved l2 _ _ w (T, none) hw (by simp) hno2
          rw [← hscan]
          simp only [scanPairs, List.flatten_append, List.flatten_cons,
            List.mem_append] at hmemw ⊢
          tauto
  constructor
  · rw [← hshape] at hpair
    obtain ⟨r, hr, hreq⟩ := List.mem_map.mp hpair
    simp only [Prod.mk.injEq] at hreq
    exact ⟨r, hr, hreq.1, hreq.2⟩
  · intro i r hr hrT
    have hrmem : r ∈ recs := List.getElem?_mem hr
    have hrp : (r.entry, r.postings) ∈ scanPairs t := by
      rw [← hshape]
      exact List.mem_map_of_mem _ hrmem
    have hpost : r.postings = none := hsnd (r.entry, r.postings) hrp hrT
    refine ⟨hpost, ?_, ?_, ?_⟩
    · have hch := flushBucket_change [] bs.flatten r (by rw [← hrecs]; exact hrmem)
      rw [hch, hpost]
      rfl
    · intro hi
      subst hi
      rw [hrecs] at hr
      have := flushBucket_zero [] bs.flatten r hr
      rw [this, hpost]
      rfl
    · intro j r' hi hr'
      subst hi
      rw [hrecs] at hr hr'
      have := flushBucket_adjacent [] bs.flatten j r' r hr' hr
      rw [this, hpost]
      rfl

/-- Witness for C10 at a concrete input: a Transaction entry given
directly, followed by a standalone posting of a different transaction. -/
theorem c10_direct_transaction_witness :
    (∃ r ∈ [Record.mk (Entry.Transaction 3 "direct") none none [],
            Record.mk (Entry.Transaction 3 "other")
              (some [Posting.mk (Entry.Transaction 3 "other") "A" ⟨⟨"USD", none, none⟩, 7⟩])
              (some [⟨⟨"USD", none, none⟩, 7⟩]) [⟨⟨"USD", none, none⟩, 7⟩]],
        r.entry = Entry.Transaction 3 "direct" ∧ r.postings = none) ∧
      ∀ i r,
        [Record.mk (Entry.Transaction 3 "direct") none none [],
         Record.mk (Entry.Transaction 3 "other")
           (some [Posting.mk (Entry.Transaction 3 "other") "A" ⟨⟨"USD", none, none⟩, 7⟩])
           (some [⟨⟨"USD", none, none⟩, 7⟩]) [⟨⟨"USD", none, none⟩, 7⟩]][i]? = some r →
        r.entry = Entry.Transaction 3 "direct" →
        r.postings = none ∧ r.change = none ∧
          (i = 0 → r.balance = []) ∧
          (∀ j r', i = j + 1 →
            [Record.mk (Entry.Transaction 3 "direct") none none [],
             Record.mk (Entry.Transaction 3 "other")
               (some [Posting.mk (Entry.Transaction 3 "other") "A" ⟨⟨"USD", none, none⟩, 7⟩])
               (some [⟨⟨"USD", none, none⟩, 7⟩]) [⟨⟨"USD", none, none⟩, 7⟩]][j]? = some r' →
            r.balance = r'.balance) :=
  c10_direct_transaction
    [Item.entry (Entry.Transaction 3 "direct"),
     Item.posting (Posting.mk (Entry.Transaction 3 "other") "A" ⟨⟨"USD", none, none⟩, 7⟩)]
    (Entry.Transaction 3 "direct")
    [Record.mk (Entry.Transaction 3 "direct") none none [],
     Record.mk (Entry.Transaction 3 "other")
       (some [Posting.mk (Entry.Transaction 3 "other") "A" ⟨⟨"USD", none, none⟩, 7⟩])
       (some [⟨⟨"USD", none, none⟩, 7⟩]) [⟨⟨"USD", none, none⟩, 7⟩]]
    (by decide) (by decide)
    (by
      intro p hp
      simp only [List.mem_cons, List.not_mem_nil, or_false] at hp
      rcases hp with h | h
      · exact Item.noConfusion h
      · have hpv : p = Posting.mk (Entry.Transaction 3 "other") "A" ⟨⟨"USD", none, none⟩, 7⟩ := by
          injection h
        subst hpv
        decide)
    (by decide)

/-! ## Claim C2: contiguous postings of one transaction de-dup -/

/-- Scanning a contiguous run of standalone postings that all belong to
the buffered transaction `T` appends each of them, in order, to the single
pair keyed by `T`; no flush happens because the date never changes. -/
theorem scanGo_postingBlock (T : Entry) (qs : List Posting) :
    ∀ B0 acc, (∀ de ∈ B0, de.1 ≠ T) → (∀ q ∈ qs, q.entry = T) →
      scanGo (some T.date) (B0 ++ [(T, some acc)]) (qs.map Item.posting) =
        some (some T.date, B0 ++ [(T, some (acc ++ qs))], []) := by
  induction qs with
  | nil =>
    intro B0 acc _ _
    simp [scanGo]
  | cons q qs ih =>
    intro B0 acc hB0 hall
    have hq : q.entry = T := hall q (List.mem_cons_self _ _)
    have hall' : ∀ p ∈ qs, p.entry = T := fun p hp => hall p (List.mem_cons_of_mem _ hp)
    simp only [List.map_cons, scanGo, resolveItem]
    rw [hq]
    rw [if_neg (fun hcon => hcon rfl)]
    simp only [bufferItem]
    rw [appendPosting_found B0 T acc q hB0]
    dsimp only
    rw [ih B0 (acc ++ [q]) hB0 hall']
    simp [List.append_assoc]

/-- Filtering records by entry then taking their (entry, postings) shape
is the same as filtering the shapes by key. -/
theorem filter_shape_map (l : List Record) (T : Entry) :
    (l.filter (fun r0 => decide (r0.entry = T))).map (fun r => (r.entry, r.postings)) =
      (l.map (fun r => (r.entry, r.postings))).filter (keyIs T) := by
  induction l with
  | nil => rfl
  | cons r rest ih =>
    simp only [List.filter_cons, List.map_cons]
    by_cases hr : r.entry = T
    · simp [keyIs, hr, ih]
    · simp [keyIs, hr, ih]

/-- C2: if the postings P1..Pn of one Transaction appear contiguously as
standalone Posting items (and the transaction does not otherwise occur in
the input), `iterate_with_balance` emits exactly one record for that
transaction, and its change inventory is the lot-merged sum of the
positions of P1..Pn. -/
theorem c2_posting_dedup (pre post : List Item) (ps : List Posting) (T : Entry)
    (recs : List Record)
    (hT : T.isTxn = true) (hne : ps ≠ []) (hall : ∀ p ∈ ps, p.entry = T)
    (hpre : ∀ it ∈ pre, (resolveItem it).1 ≠ T)
    (hpost : ∀ it ∈ post, (resolveItem it).1 ≠ T)
    (h : iterate_with_balance (pre ++ ps.map Item.posting ++ post) = some recs) :
    ∃ r, recs.filter (fun r0 => decide (r0.entry = T)) = [r] ∧
      r.postings = some ps ∧
      r.change = some (addAllPositions [] (ps.map Posting.position)) := by
  obtain ⟨bs, hc, hrecs⟩ := iterate_records _ recs h
  obtain ⟨t, hscan, hbs⟩ := collect_scan none [] _ bs hc
  have hshape : recs.map (fun r => (r.entry, r.postings)) = scanPairs t := by
    rw [hrecs, flushBucket_shape, hbs]
    simp [scanPairs]
  rw [List.append_assoc, scanGo_append] at hscan
  cases hs1 : scanGo none [] pre with
  | none => rw [hs1] at hscan; exact absurd hscan (by simp)
  | some t1 =>
    rw [hs1] at hscan
    dsimp only at hscan
    have hfil1 : (scanPairs t1).filter (keyIs T) = [] := by
      rw [scanGo_filter_keyIs T pre none [] t1 hs1 hpre]
      rfl
    have hkeys1 : ∀ de ∈ t1.2.1, de.1 ≠ T := by
      intro de hde hcon
      have hmem : de ∈ (scanPairs t1).filter (keyIs T) := by
        rw [List.mem_filter]
        exact ⟨by simp [scanPairs, hde], by simp [keyIs, hcon]⟩
      rw [hfil1] at hmem
      simp at hmem
    have hfil1' : t1.2.2.flatten.filter (keyIs T) = [] := by
      have h0 := hfil1
      rw [scanPairs, List.filter_append] at h0
      exact (List.append_eq_nil.mp h0).1
    have hfil_b1 : t1.2.1.filter (keyIs T) = [] :=
      List.filter_eq_nil_iff.mpr (fun de hde => by simp [keyIs, hkeys1 de hde])
    obtain ⟨q, qs, rfl⟩ : ∃ q qs, ps = q :: qs := by
      cases ps with
      | nil => exact absurd rfl hne
      | cons q qs => exact ⟨q, qs, rfl⟩
    have hq : q.entry = T := hall q (List.mem_cons_self _ _)
    have hall' : ∀ p ∈ qs, p.entry = T := fun p hp => hall p (List.mem_cons_of_mem _ hp)
    have heval : ∃ B0 D, (∀ de ∈ B0, de.1 ≠ T) ∧ D.flatten.filter (keyIs T) = [] ∧
        scanGo t1.1 t1.2.1 ((q :: qs).map Item.posting) =
          some (some T.date, B0 ++ [(T, some (q :: qs))], D) := by
      by_cases hd : some T.date = t1.1
      · refine ⟨t1.2.1, [], hkeys1, rfl, ?_⟩
        simp only [List.map_cons, scanGo, resolveItem]
        rw [hq, if_neg (fun hcon => hcon hd)]
        simp only [bufferItem]
        rw [appendPosting_notfound t1.2.1 T q hkeys1]
        dsimp only
        rw [← hd, scanGo_postingBlock T qs t1.2.1 [q] hkeys1 hall']
        simp
      · refine ⟨[], [t1.2.1], by simp, ?_, ?_⟩
        · simpa using hfil_b1
        · simp only [List.map_cons, scanGo, resolveItem]
          rw [hq, if_pos hd]
          simp only [bufferItem]
          have hpb := scanGo_postingBlock T qs [] [q] (by simp) hall'
          rw [List.nil_append] at hpb
          rw [show appendPosting [] T q = some [(T, some [q])] from rfl]
          dsimp only
          rw [hpb]
          simp
    obtain ⟨B0, D, hB0, hDfil, heval⟩ := heval
    rw [scanGo_append, heval] at hscan
    dsimp only at hscan
    cases hu2 : scanGo (some T.date) (B0 ++ [(T, some (q :: qs))]) post with
    | none => rw [hu2] at hscan; exact absurd hscan (by simp)
    | some u2 =>
      rw [hu2] at hscan
      simp only [Option.map_some', Option.some.injEq] at hscan
      have hfil2 := scanGo_filter_keyIs T post _ _ u2 hu2 hpost
      have hfilB : (B0 ++ [(T, some (q :: qs))]).filter (keyIs T) = [(T, some (q :: qs))] := by
        rw [List.filter_append,
          List.filter_eq_nil_iff.mpr (fun de hde => by simp [keyIs, hB0 de hde])]
        simp [keyIs]
      have hfilT : (scanPairs t).filter (keyIs T) = [(T, some (q :: qs))] := by
        rw [← hscan]
        have hu2split := hfil2
        rw [hfilB] at hu2split
        rw [scanPairs, List.filter_append] at hu2split
        simp only [scanPairs, List.flatten_append, List.flatten_cons, List.filter_append,
          List.append_assoc]
        rw [hfil1', hDfil]
        simpa using hu2split
      have hmapfil : (recs.filter (fun r0 => decide (r0.entry = T))).map
          (fun r => (r.entry, r.postings)) = [(T, some (q :: qs))] := by
        rw [filter_shape_map, hshape, hfilT]
      cases hfl : recs.filter (fun r0 => decide (r0.entry = T)) with
      | nil => rw [hfl] at hmapfil; simp at hmapfil
      | cons r rest =>
        rw [hfl] at hmapfil
        simp only [List.map_cons, List.cons.injEq, Prod.mk.injEq] at hmapfil
        obtain ⟨⟨hre, hrp⟩, hrest⟩ := hmapfil
        have hrestnil : rest = [] := by
          cases rest with
          | nil => rfl
          | cons a b => simp at hrest
        subst hrestnil
        have hrmem : r ∈ recs :=
          List.mem_of_mem_filter (by rw [hfl]; exact List.mem_cons_self _ _)
        have hch := flushBucket_change [] bs.flatten r (by rw [← hrecs]; exact hrmem)
        refine ⟨r, rfl, hrp, ?_⟩
        rw [hch, hrp]
        simp [changeOf]

/-- Witness for C2 at a concrete input: two contiguous standalone postings
of one transaction, surrounded by an unrelated entry on each side. -/
theorem c2_posting_dedup_witness :
    ∃ r,
      (Option.getD (iterate_with_balance
        ([Item.entry (Entry.Open 3 "Assets:Bank")] ++
          [Posting.mk (Entry.Transaction 3 "buy") "A" ⟨⟨"USD", none, none⟩, 4⟩,
           Posting.mk (Entry.Transaction 3 "buy") "B" ⟨⟨"CAD", none, none⟩, 5⟩].map Item.posting ++
          [Item.entry (Entry.Note 9 "memo")])) []).filter
        (fun r0 => decide (r0.entry = Entry.Transaction 3 "buy")) = [r] ∧
      r.postings = some [Posting.mk (Entry.Transaction 3 "buy") "A" ⟨⟨"USD", none, none⟩, 4⟩,
                         Posting.mk (Entry.Transaction 3 "buy") "B" ⟨⟨"CAD", none, none⟩, 5⟩] ∧
      r.change = some (addAllPositions []
        ([Posting.mk (Entry.Transaction 3 "buy") "A" ⟨⟨"USD", none, none⟩, 4⟩,
          Posting.mk (Entry.Transaction 3 "buy") "B" ⟨⟨"CAD", none, none⟩, 5⟩].map Posting.position)) := by
  have hmain := c2_posting_dedup
    [Item.entry (Entry.Open 3 "Assets:Bank")]
    [Item.entry (Entry.Note 9 "memo")]
    [Posting.mk (Entry.Transaction 3 "buy") "A" ⟨⟨"USD", none, none⟩, 4⟩,
     Posting.mk (Entry.Transaction 3 "buy") "B" ⟨⟨"CAD", none, none⟩, 5⟩]
    (Entry.Transaction 3 "buy")
    (Option.getD (iterate_with_balance
      ([Item.entry (Entry.Open 3 "Assets:Bank")] ++
        [Posting.mk (Entry.Transaction 3 "buy") "A" ⟨⟨"USD", none, none⟩, 4⟩,
         Posting.mk (Entry.Transaction 3 "buy") "B" ⟨⟨"CAD", none, none⟩, 5⟩].map Item.posting ++
        [Item.entry (Entry.Note 9 "memo")])) [])
    (by decide) (by decide) (by decide) (by decide) (by decide) (by decide)
  exact hmain

/-! ## Claim C7: empty input, flush boundaries and emission order -/

/-- The date of the first item of a run (resolved through its parent for
postings); `none` for the empty run. -/
def runDate : List Item → Option Nat
  | [] => none
  | i :: _ => some (resolveItem i).1.date

/-- Split an item sequence into its maximal runs of equal resolved date.
These are exactly the same-date groups the scanning loop buffers between
two flushes. -/
def runSplit : List Item → List (List Item)
  | [] => []
  | i :: is =>
    match runSplit is with
    | [] => [[i]]
    | r :: rs =>
      if runDate r = some (resolveItem i).1.date then (i :: r) :: rs
      else [i] :: (r :: rs)

/-- Well-formedness of a run decomposition: every run is non-empty and
date-uniform, and each run's date differs from what precedes it. -/
def WFRuns : Option Nat → List (List Item) → Prop
  | _, [] => True
  | prev, run :: rest =>
      run ≠ [] ∧ (∀ i ∈ run, some (resolveItem i).1.date = runDate run) ∧
      runDate run ≠ prev ∧ WFRuns (runDate run) rest

theorem runSplit_flatten (items : List Item) : (runSplit items).flatten = items := by
  induction items with
  | nil => rfl
  | cons i is ih =>
    simp only [runSplit]
    cases hsplit : runSplit is with
    | nil =>
      rw [hsplit] at ih
      simp only [List.flatten_nil] at ih
      simp [← ih]
    | cons r rs =>
      rw [hsplit] at ih
      dsimp only
      split
      · simp only [List.flatten_cons] at ih ⊢
        simp [ih]
      · simp only [List.flatten_cons] at ih ⊢
        simp [ih]

theorem runSplit_wf (items : List Item) : WFRuns none (runSplit items) := by
  induction items with
  | nil => trivial
  | cons i is ih =>
    simp only [runSplit]
    cases hsplit : runSplit is with
    | nil =>
      refine ⟨by simp, ?_, by simp [runDate], trivial⟩
      intro k hk
      simp only [List.mem_singleton] at hk
      subst hk
      rfl
    | cons r rs =>
      rw [hsplit] at ih
      simp only [WFRuns] at ih
      obtain ⟨hrne, hruni, hrd, hwf⟩ := ih
      dsimp only
      split
      · rename_i hdate
        refine ⟨by simp, ?_, by simp [runDate], ?_⟩
        · intro k hk
          rcases List.mem_cons.mp hk with hk | hk
          · subst hk; rfl
          · rw [hruni k hk, hdate]
            rfl
        · have heq : runDate (i :: r) = runDate r := by rw [hdate]; rfl
          rw [heq]
          exact hwf
      · rename_i hdate
        refine ⟨by simp, ?_, by simp [runDate], hrne, hruni, ?_, hwf⟩
        · intro k hk
          simp only [List.mem_singleton] at hk
          subst hk
          rfl
        · simpa [runDate] using hdate

/-- Fold the buffering step over a run, starting from a given buffer. -/
def bucketOfRunGo : Bucket → List Item → Option Bucket
  | b, [] => some b
  | b, i :: is =>
    match bufferItem b (resolveItem i).1 (resolveItem i).2 with
    | none => none
    | some b2 => bucketOfRunGo b2 is

/-- The buffer one date-run builds up, in first-seen order. -/
def bucketOfRun (run : List Item) : Option Bucket :=
  bucketOfRunGo [] run

/-- The buffers of a run decomposition, in order. -/
def bucketsOfRuns : List (List Item) → Option (List Bucket)
  | [] => some []
  | run :: rs =>
    match bucketOfRun run with
    | none => none
    | some b => (bucketsOfRuns rs).map (fun bs => b :: bs)

/-- Scanning a date-uniform run whose date matches the previous date never
flushes: it only folds the buffering step over the buffer. -/
theorem scanGo_run (run : List Item) :
    ∀ d b, (∀ i ∈ run, (resolveItem i).1.date = d) →
      scanGo (some d) b run = (bucketOfRunGo b run).map (fun b2 => (some d, b2, [])) := by
  induction run with
  | nil => intro d b _; rfl
  | cons i is ih =>
    intro d b huni
    have hid : (resolveItem i).1.date = d := huni i (List.mem_cons_self _ _)
    simp only [scanGo, bucketOfRunGo]
    rw [if_neg (by rw [hid]; exact fun hcon => hcon rfl)]
    cases hb : bufferItem b (resolveItem i).1 (resolveItem i).2 with
    | none => rfl
    | some b2 => exact ih d b2 (fun k hk => huni k (List.mem_cons_of_mem _ hk))

/-- Scanning the concatenation of a well-formed run decomposition flushes
exactly at the run boundaries: the flushed buckets (with the final buffer
last) are the initial buffer followed by each run's buffer. -/
theorem scanGo_runs (rs : List (List Item)) :
    ∀ prev b t, WFRuns prev rs → scanGo prev b rs.flatten = some t →
      ∃ bks, bucketsOfRuns rs = some bks ∧ t.2.2 ++ [t.2.1] = b :: bks := by
  induction rs with
  | nil =>
    intro prev b t _ h
    simp only [List.flatten_nil, scanGo, Option.some.injEq] at h
    subst h
    exact ⟨[], rfl, rfl⟩
  | cons run rs ih =>
    intro prev b t hwf h
    obtain ⟨hrne, hruni, hrd, hwf'⟩ := hwf
    cases hrun : run with
    | nil => exact absurd hrun hrne
    | cons i run' =>
      subst hrun
      simp only [List.flatten_cons, List.cons_append, scanGo] at h
      rw [if_pos (by
        intro hcon
        exact hrd (by rw [← hcon]; rfl))] at h
      cases hb1 : bufferItem [] (resolveItem i).1 (resolveItem i).2 with
      | none => rw [hb1] at h; exact absurd h (by simp)
      | some b1 =>
        rw [hb1] at h
        dsimp only at h
        simp only [List.append_eq] at h
        rw [scanGo_append] at h
        have huni' : ∀ k ∈ run', (resolveItem k).1.date = (resolveItem i).1.date := by
          intro k hk
          have := hruni k (List.mem_cons_of_mem _ hk)
          simp only [runDate, Option.some.injEq] at this
          exact this
        rw [scanGo_run run' (resolveItem i).1.date b1 huni'] at h
        cases hbr : bucketOfRunGo b1 run' with
        | none => rw [hbr] at h; exact absurd h (by simp)
        | some bRun =>
          rw [hbr] at h
          simp only [Option.map_some'] at h
          cases hu : scanGo (some (resolveItem i).1.date) bRun rs.flatten with
          | none => rw [hu] at h; exact absurd h (by simp)
          | some u =>
            rw [hu] at h
            simp only [Option.map_some', Option.some.injEq, List.nil_append] at h
            have hwfu : WFRuns (some (resolveItem i).1.date) rs := by
              have : runDate (i :: run') = some (resolveItem i).1.date := rfl
              rw [← this]
              exact hwf'
            obtain ⟨bks, hbks, hshape⟩ := ih (some (resolveItem i).1.date) bRun u hwfu hu
            have hbor : bucketOfRun (i :: run') = some bRun := by
              simp only [bucketOfRun, bucketOfRunGo, hb1]
              exact hbr
            refine ⟨bRun :: bks, ?_, ?_⟩
            · simp only [bucketsOfRuns, hbor, hbks, Option.map_some']
            · rw [← h]
              simp only
              rw [← hshape]
              simp

/-- The buffered entries of a list of buckets, bucket by bucket. -/
theorem map_fst_flatten (bks : List Bucket) :
    bks.flatten.map Prod.fst = (bks.map bucketKeys).flatten := by
  induction bks with
  | nil => rfl
  | cons b rest ih => simp [bucketKeys, ih]

/-- Whether the items appear in non-decreasing resolved-date order. -/
abbrev dateOrdered (items : List Item) : Prop :=
  List.Chain' (fun a b => (resolveItem a).1.date ≤ (resolveItem b).1.date) items

/-- C7: `iterate_with_balance` yields the empty sequence on empty input;
and on a date-ordered input that it fully consumes, records are grouped
exactly by the maximal same-date runs (a bucket is flushed only when the
scanned item's date differs from the buffered date, or at end of input),
and within one date bucket records are emitted in the buffered first-seen
order of their entries. -/
theorem c7_flush_order :
    iterate_with_balance [] = some [] ∧
      ∀ items recs, dateOrdered items → iterate_with_balance items = some recs →
        ∃ bks, bucketsOfRuns (runSplit items) = some bks ∧
          recs.map Record.entry = (bks.map bucketKeys).flatten := by
  constructor
  · rfl
  · intro items recs _ h
    obtain ⟨bs, hc, hrecs⟩ := iterate_records items recs h
    obtain ⟨t, hscan, hbs⟩ := collect_scan none [] items bs hc
    rw [← runSplit_flatten items] at hscan
    obtain ⟨bks, hbks, hshape⟩ := scanGo_runs (runSplit items) none [] t (runSplit_wf items) hscan
    refine ⟨bks, hbks, ?_⟩
    have hmap : recs.map (fun r => (r.entry, r.postings)) = bs.flatten := by
      rw [hrecs, flushBucket_shape]
    have : recs.map Record.entry = bs.flatten.map Prod.fst := by
      have := congrArg (List.map Prod.fst) hmap
      simpa [Function.comp] using this
    rw [this, hbs, hshape]
    simp only [List.flatten_cons, List.nil_append]
    exact map_fst_flatten bks

/-- Witness for C7: two—same-date entries followed by a later entry form
two buckets; records appear in first-seen order. -/
theorem c7_flush_order_witness :
    iterate_with_balance [] = some [] ∧
      ∃ bks, bucketsOfRuns (runSplit
          [Item.entry (Entry.Open 1 "Assets:Bank"), Item.entry (Entry.Note 1 "memo"),
           Item.entry (Entry.Note 2 "later")]) = some bks ∧
        (Option.getD (iterate_with_balance
          [Item.entry (Entry.Open 1 "Assets:Bank"), Item.entry (Entry.Note 1 "memo"),
           Item.entry (Entry.Note 2 "later")]) []).map Record.entry =
          (bks.map bucketKeys).flatten :=
  ⟨c7_flush_order.1,
   c7_flush_order.2
     [Item.entry (Entry.Open 1 "Assets:Bank"), Item.entry (Entry.Note 1 "memo"),
      Item.entry (Entry.Note 2 "later")]
     (Option.getD (iterate_with_balance
       [Item.entry (Entry.Open 1 "Assets:Bank"), Item.entry (Entry.Note 1 "memo"),
        Item.entry (Entry.Note 2 "later")]) [])
     (by norm_num [dateOrdered, List.chain'_cons, resolveItem, Entry.date]) (by decide)⟩

/-! ## compute_ids (web.py lines 1277-1300) -/

/-- The character class kept by the first substitution scheme,
`[A-Za-z0-9-.]` (the complement class is replaced by underscores). -/
def keep1 (c : Char) : Bool :=
  (65 ≤ c.toNat && c.toNat ≤ 90) || (97 ≤ c.toNat && c.toNat ≤ 122) ||
    (48 ≤ c.toNat && c.toNat ≤ 57) || c == '-' || c == '.'

/-- The character class kept by the stricter scheme, `[A-Za-z0-9]` (the
complement class is deleted). -/
def keep2 (c : Char) : Bool :=
  (65 ≤ c.toNat && c.toNat ≤ 90) || (97 ≤ c.toNat && c.toNat ≤ 122) ||
    (48 ≤ c.toNat && c.toNat ≤ 57)

/-- The simple scheme: replace every character outside the class with an
underscore. -/
def sub1 (s : String) : String :=
  String.mk (s.data.map (fun c => if keep1 c then c else '_'))

/-- The stricter scheme: delete every character outside the class. -/
def sub2 (s : String) : String :=
  String.mk (s.data.filter keep2)

/-- Lexicographic order on (id, string) pairs, as Python sorts tuples. -/
def pairLe (a b : String × String) : Bool :=
  decide (a.1 < b.1) || (a.1 == b.1 && decide (a.2 ≤ b.2))

def insertSorted (x : String × String) :
    List (String × String) → List (String × String)
  | [] => [x]
  | y :: ys => if pairLe x y then x :: y :: ys else y :: insertSorted x ys

/-- The `sorted(...)` of the source's return. -/
def sortPairs (l : List (String × String)) : List (String × String) :=
  l.foldr insertSorted []

/-- `compute_ids` (lines 1277-1300 of `web.py`): reduce a set of strings
to id tokens.  The first substitution scheme is tried; if two distinct
inputs collide, the stricter scheme is tried; if that still collides, the
function raises (`none`).  On success it returns the sorted (id, string)
pairs. -/
def compute_ids (strings : List String) : Option (List (String × String)) :=
  let ss := strings.dedup
  if (ss.map sub1).Nodup then
    some (sortPairs (ss.map (fun s => (sub1 s, s))))
  else if (ss.map sub2).Nodup then
    some (sortPairs (ss.map (fun s => (sub2 s, s))))
  else none

theorem insertSorted_perm (x : String × String) (l : List (String × String)) :
    List.Perm (insertSorted x l) (x :: l) := by
  induction l with
  | nil => exact List.Perm.refl _
  | cons y ys ih =>
    simp only [insertSorted]
    split
    · exact List.Perm.refl _
    · exact (List.Perm.cons y ih).trans (List.Perm.swap x y ys)

theorem sortPairs_perm (l : List (String × String)) :
    List.Perm (sortPairs l) l := by
  induction l with
  | nil => exact List.Perm.refl _
  | cons a l ih =>
    simp only [sortPairs, List.foldr_cons]
    exact (insertSorted_perm a _).trans (List.Perm.cons a ih)

/-! ## Claim C8: id uniqueness of compute_ids -/

/-- C8: for a finite set of input strings, `compute_ids` either returns a
deterministic mapping in which every input appears exactly once and no
two inputs share a token, or fails; it uses the simple substitution
scheme when it is collision-free, and returns `none` exactly when both
substitution schemes leave a collision. -/
theorem c8_compute_ids (strings : List String) :
    (compute_ids strings = none ↔
      ¬(strings.dedup.map sub1).Nodup ∧ ¬(strings.dedup.map sub2).Nodup) ∧
    ((strings.dedup.map sub1).Nodup →
      compute_ids strings = some (sortPairs (strings.dedup.map (fun s => (sub1 s, s))))) ∧
    (∀ pairs, compute_ids strings = some pairs →
      (pairs.map Prod.fst).Nodup ∧ List.Perm (pairs.map Prod.snd) strings.dedup) := by
  by_cases h1 : (strings.dedup.map sub1).Nodup
  · refine ⟨by simp [compute_ids, h1], fun _ => by simp [compute_ids, h1], ?_⟩
    intro pairs hp
    simp only [compute_ids, if_pos h1, Option.some.injEq] at hp
    subst hp
    constructor
    · have hperm : List.Perm
          ((sortPairs (strings.dedup.map (fun s => (sub1 s, s)))).map Prod.fst)
          ((strings.dedup.map (fun s => (sub1 s, s))).map Prod.fst) :=
        List.Perm.map _ (sortPairs_perm _)
      rw [hperm.nodup_iff]
      simpa [List.map_map, Function.comp] using h1
    · have hperm : List.Perm
          ((sortPairs (strings.dedup.map (fun s => (sub1 s, s)))).map Prod.snd)
          ((strings.dedup.map (fun s => (sub1 s, s))).map Prod.snd) :=
        List.Perm.map _ (sortPairs_perm _)
      refine hperm.trans ?_
      simp [List.map_map, Function.comp_def]
  · by_cases h2 : (strings.dedup.map sub2).Nodup
    · refine ⟨by simp [compute_ids, h1, h2], fun hcon => absurd hcon h1, ?_⟩
      intro pairs hp
      simp only [compute_ids, if_neg h1, if_pos h2, Option.some.injEq] at hp
      subst hp
      constructor
      · have hperm : List.Perm
            ((sortPairs (strings.dedup.map (fun s => (sub2 s, s)))).map Prod.fst)
            ((strings.dedup.map (fun s => (sub2 s, s))).map Prod.fst) :=
          List.Perm.map _ (sortPairs_perm _)
        rw [hperm.nodup_iff]
        simpa [List.map_map, Function.comp] using h2
      · have hperm : List.Perm
            ((sortPairs (strings.dedup.map (fun s => (sub2 s, s)))).map Prod.snd)
            ((strings.dedup.map (fun s => (sub2 s, s))).map Prod.snd) :=
          List.Perm.map _ (sortPairs_perm _)
        refine hperm.trans ?_
        simp [List.map_map, Function.comp_def]
    · refine ⟨by simp [compute_ids, h1, h2], fun hcon => absurd hcon h1, ?_⟩
      intro pairs hp
      simp [compute_ids, h1, h2] at hp

/-- Witness for C8 at a concrete input: the simple scheme is
collision-free on two distinct inputs, so the result uses it. -/
theorem c8_compute_ids_witness :
    compute_ids ["a b", "c"] =
      some (sortPairs ((["a b", "c"].dedup).map (fun s => (sub1 s, s)))) :=
  (c8_compute_ids ["a b", "c"]).2.1 (by decide)

/-! ## Account tree and table_of_balances (web.py lines 322-371) -/

/-- Modelled from the spec: a `RealAccount` tree node (the external
`beancount2.realization.RealAccount`): the full account name, the node's
own direct postings (the entries attached to it), its rolled-up inventory
balance, and its child nodes. -/
inductive RealAccountT where
  | node (name : String) (postings : List Entry) (balance : Inventory)
      (children : List RealAccountT)

def RealAccountT.name : RealAccountT → String
  | .node n _ _ _ => n

def RealAccountT.postings : RealAccountT → List Entry
  | .node _ ps _ _ => ps

def RealAccountT.balance : RealAccountT → Inventory
  | .node _ _ bal _ => bal

/-- The posting-scanning loop of `is_account_active` (lines 326-330):
skip Open directives; any other entry makes the account active. -/
def activeLoop : List Entry → Bool
  | [] => false
  | e :: rest => if e.isOpen then activeLoop rest else true

/-- `is_account_active` (lines 322-330 of `web.py`): true iff the account
has at least one direct posting that is not an Open directive. -/
def is_account_active (ra : RealAccountT) : Bool :=
  activeLoop ra.postings

mutual
/-- Modelled from the spec: bottom-up activity as computed by
`tree.mark_from_leaves(is_account_active)` — a node is marked iff it is
active itself or some descendant is. -/
def activeUp : RealAccountT → Bool
  | .node n ps bal cs => is_account_active (.node n ps bal cs) || activeUpList cs

def activeUpList : List RealAccountT → Bool
  | [] => false
  | c :: cs => activeUp c || activeUpList cs
end

mutual
/-- All nodes of the tree in depth-first preorder (parents before
children) — the order `tree.render_lines` walks the rows. -/
def subtreesDFS : RealAccountT → List RealAccountT
  | .node n ps bal cs => .node n ps bal cs :: subtreesList cs

def subtreesList : List RealAccountT → List RealAccountT
  | [] => []
  | c :: cs => subtreesDFS c ++ subtreesList cs
end

/-- Modelled from the spec: the name set `tree.mark_from_leaves` returns
(external `realization`): the names of all bottom-up-active nodes. -/
def mark_from_leaves (t : RealAccountT) : List String :=
  ((subtreesDFS t).filter activeUp).map RealAccountT.name

/-- Modelled from the spec: `is_account_root` (external `beancount2.data`):
whether the name is one of the designated category roots. -/
def is_account_root (name : String) : Bool :=
  ["Assets", "Liabilities", "Equity", "Income", "Expenses"].contains name

/-- Lines 338-349 of `web.py`: the rows `table_of_balances` renders — the
tree's nodes in rendering order, skipping any node that is neither in the
pre-computed active set nor a category root. -/
def table_of_balances_rows (t : RealAccountT) : List RealAccountT :=
  let active_set := mark_from_leaves t
  (subtreesDFS t).filter
    (fun ra => !(!active_set.contains ra.name && !is_account_root ra.name))

/-! ## Claim C4: pruning rule of the table of balances -/

/-- C4: in a tree whose node names are distinct (account names are unique
in a realization), a node is emitted as a row by `table_of_balances` iff
it is active — it or some descendant has a direct posting that is not an
Open directive — or its name is one of the designated category roots. -/
theorem c4_active_pruning (t : RealAccountT) (s : RealAccountT)
    (hnodup : ((subtreesDFS t).map RealAccountT.name).Nodup)
    (hs : s ∈ subtreesDFS t) :
    s ∈ table_of_balances_rows t ↔
      (activeUp s = true ∨ is_account_root s.name = true) := by
  have hinj := List.inj_on_of_nodup_map hnodup
  constructor
  · intro hrow
    have hmem := List.mem_filter.mp hrow
    have hcond := hmem.2
    simp only [Bool.not_and, Bool.not_not, Bool.or_eq_true] at hcond
    rcases hcond with hc | hc
    · left
      have : s.name ∈ mark_from_leaves t := List.mem_of_elem_eq_true hc
      obtain ⟨s', hs', hname⟩ := List.mem_map.mp this
      have hs'mem := (List.mem_filter.mp hs').1
      have hs'act := (List.mem_filter.mp hs').2
      have : s' = s := hinj hs'mem hs hname
      rw [← this]
      exact hs'act
    · right
      exact hc
  · intro hact
    apply List.mem_filter.mpr
    refine ⟨hs, ?_⟩
    simp only [Bool.not_and, Bool.not_not, Bool.or_eq_true]
    rcases hact with hac | hac
    · left
      apply List.elem_eq_true_of_mem
      apply List.mem_map.mpr
      exact ⟨s, List.mem_filter.mpr ⟨hs, hac⟩, rfl⟩
    · right
      exact hac

/-- Witness for C4 at a concrete tree: a leaf with a non-Open posting
under the Assets root. -/
theorem c4_active_pruning_witness :
    (RealAccountT.node "Assets:Cash" [Entry.Open 1 "Assets:Cash", Entry.Note 1 "hello"] [] []) ∈
        table_of_balances_rows
          (RealAccountT.node "Assets" [] []
            [RealAccountT.node "Assets:Cash"
              [Entry.Open 1 "Assets:Cash", Entry.Note 1 "hello"] [] []]) ↔
      (activeUp (RealAccountT.node "Assets:Cash"
          [Entry.Open 1 "Assets:Cash", Entry.Note 1 "hello"] [] []) = true ∨
        is_account_root (RealAccountT.node "Assets:Cash"
          [Entry.Open 1 "Assets:Cash", Entry.Note 1 "hello"] [] []).name = true) :=
  c4_active_pruning
    (RealAccountT.node "Assets" [] []
      [RealAccountT.node "Assets:Cash" [Entry.Open 1 "Assets:Cash", Entry.Note 1 "hello"] [] []])
    (RealAccountT.node "Assets:Cash" [Entry.Open 1 "Assets:Cash", Entry.Note 1 "hello"] [] [])
    (by
      simp only [subtreesDFS, subtreesList, List.map_cons, List.map_nil, RealAccountT.name,
        List.append_nil, List.map_append]
      decide)
    (by simp [subtreesDFS, subtreesList])

/-! ## Currency-split of a rendered row (web.py lines 354-369) -/

/-- Python `list.remove`: drop the first occurrence of a value; `none`
models the ValueError raised when the value is absent. -/
def removeOne : List Position → Position → Option (List Position)
  | [], _ => none
  | x :: xs, p => if x = p then some xs else (removeOne xs p).map (fun l => x :: l)

/-- Rendering of a numeric cell; the source's two-decimal comma format is
presentation-only and modelled as `toString`. -/
def formatNumber (n : Int) : String := toString n

/-- Rendering of one position inside the residual cell (`str(position)`). -/
def positionStr (p : Position) : String :=
  formatNumber p.number ++ " " ++ p.lot.currency

/-- Lines 359-366 of `web.py`: walk the operating currencies in order; a
currency held by the cost balance appends its quantity as a cell and
removes that position from the remaining list, a missing currency appends
a blank cell. -/
def rowCellsGo (balance_cost : Inventory) :
    List String → List String → List Position → Option (List String × List Position)
  | [], cells, positions => some (cells, positions)
  | c :: cs, cells, positions =>
    match getPosition balance_cost ⟨c, none, none⟩ with
    | some p =>
      match removeOne positions p with
      | none => none
      | some positions2 =>
        rowCellsGo balance_cost cs (cells ++ [formatNumber p.number]) positions2
    | none => rowCellsGo balance_cost cs (cells ++ [""]) positions

/-- Lines 354-369 of `web.py`: the cells of one rendered row — one numeric
cell per operating currency followed by the residual cell joining every
remaining position. -/
def row_cells (balance_cost : Inventory) (currencies : List String) :
    Option (List String) :=
  (rowCellsGo balance_cost currencies [] balance_cost).map
    (fun pr => pr.1 ++ [String.intercalate "\n<br/>" (pr.2.map positionStr)])

theorem removeOne_mem (l : List Position) (p : Position) (h : p ∈ l) :
    ∃ l2, removeOne l p = some l2 ∧ List.Perm l (p :: l2) := by
  induction l with
  | nil => simp at h
  | cons x xs ih =>
    by_cases hx : x = p
    · subst hx
      exact ⟨xs, by simp [removeOne], List.Perm.refl _⟩
    · have hmem : p ∈ xs := by
        rcases List.mem_cons.mp h with h1 | h1
        · exact absurd h1.symm hx
        · exact h1
      obtain ⟨l2, hrem, hperm⟩ := ih hmem
      refine ⟨x :: l2, by simp [removeOne, hx, hrem], ?_⟩
      exact (List.Perm.cons x hperm).trans (List.Perm.swap p x l2)

theorem getPosition_lot (inv : Inventory) (lot : Lot) (p : Position)
    (h : getPosition inv lot = some p) : p.lot = lot := by
  have := List.find?_some h
  simpa using this

theorem getPosition_mem (inv : Inventory) (lot : Lot) (p : Position)
    (h : getPosition inv lot = some p) : p ∈ inv :=
  List.mem_of_find?_eq_some h

/-- The numeric cell one operating currency produces. -/
def cellFor (bc : Inventory) (c : String) : String :=
  match getPosition bc ⟨c, none, none⟩ with
  | some p => formatNumber p.number
  | none => ""

theorem rowCellsGo_spec (bc : Inventory) (cs : List String) :
    ∀ cells positions, cs.Nodup →
      (∀ c ∈ cs, ∀ p, getPosition bc ⟨c, none, none⟩ = some p → p ∈ positions) →
      ∃ residual, rowCellsGo bc cs cells positions =
          some (cells ++ cs.map (cellFor bc), residual) ∧
        List.Perm positions
          ((cs.filterMap (fun c => getPosition bc ⟨c, none, none⟩)) ++ residual) := by
  induction cs with
  | nil =>
    intro cells positions _ _
    exact ⟨positions, by simp [rowCellsGo], by simp⟩
  | cons c cs ih =>
    intro cells positions hnd hpre
    have hnd' : cs.Nodup := hnd.of_cons
    have hcnotin : c ∉ cs := by
      intro hc
      exact (List.nodup_cons.mp hnd).1 hc
    cases hg : getPosition bc ⟨c, none, none⟩ with
    | none =>
      obtain ⟨residual, heq, hperm⟩ := ih (cells ++ [""]) positions hnd'
        (fun c' hc' => hpre c' (List.mem_cons_of_mem _ hc'))
      refine ⟨residual, ?_, ?_⟩
      · simp only [rowCellsGo, hg, heq, List.append_assoc, List.map_cons, cellFor,
          List.singleton_append]
      · simpa [List.filterMap_cons, hg] using hperm
    | some p =>
      have hpmem : p ∈ positions := hpre c (List.mem_cons_self _ _) p hg
      obtain ⟨positions2, hrem, hperm2⟩ := removeOne_mem positions p hpmem
      have hpre' : ∀ c' ∈ cs, ∀ p', getPosition bc ⟨c', none, none⟩ = some p' →
          p' ∈ positions2 := by
        intro c' hc' p' hg'
        have hp'lot : p'.lot = ⟨c', none, none⟩ := getPosition_lot bc _ p' hg'
        have hplot : p.lot = ⟨c, none, none⟩ := getPosition_lot bc _ p hg
        have hne : p' ≠ p := by
          intro hcon
          rw [hcon, hplot] at hp'lot
          have : c = c' := by
            have := congrArg Lot.currency hp'lot
            simpa using this
          rw [this] at hcnotin
          exact hcnotin hc'
        have hp'mem : p' ∈ positions := hpre c' (List.mem_cons_of_mem _ hc') p' hg'
        have := hperm2.mem_iff.mp hp'mem
        rcases List.mem_cons.mp this with h1 | h1
        · exact absurd h1 hne
        · exact h1
      obtain ⟨residual, heq, hperm⟩ := ih (cells ++ [formatNumber p.number]) positions2 hnd' hpre'
      refine ⟨residual, ?_, ?_⟩
      · simp only [rowCellsGo, hg, hrem, heq, List.append_assoc, List.map_cons, cellFor,
          List.singleton_append]
      · refine hperm2.trans ?_
        refine (List.Perm.cons p hperm).trans ?_
        simp [List.filterMap_cons, hg]

/-! ## Claim C5: one cell per operating currency plus a residual cell -/

/-- C5: for a cost-basis balance and a duplicate-free ordered list of
operating currencies, the rendered row consists of exactly one numeric
cell per operating currency — the balance's position in that currency, or
blank if none — followed by one residual cell joining every remaining
position; each position is consumed by at most one cell: the positions
split as matched ones plus the residual (a matched position is removed
from the residual set). -/
theorem c5_currency_split (bc : Inventory) (curs : List String) (hnd : curs.Nodup) :
    ∃ residual, row_cells bc curs =
        some ((curs.map (cellFor bc)) ++
          [String.intercalate "\n<br/>" (residual.map positionStr)]) ∧
      List.Perm bc
        ((curs.filterMap (fun c => getPosition bc ⟨c, none, none⟩)) ++ residual) := by
  obtain ⟨residual, heq, hperm⟩ := rowCellsGo_spec bc curs [] bc hnd
    (fun c _ p hp => getPosition_mem bc _ p hp)
  refine ⟨residual, ?_, hperm⟩
  simp only [row_cells, heq, Option.map_some', List.nil_append]

/-- Witness for C5 at a concrete inventory: USD is matched and removed
from the residual, GBP is blank, EUR remains in the residual cell. -/
theorem c5_currency_split_witness :
    ∃ residual, row_cells
        [⟨⟨"USD", none, none⟩, 5⟩, ⟨⟨"EUR", none, none⟩, 3⟩] ["USD", "GBP"] =
        some ((["USD", "GBP"].map
            (cellFor [⟨⟨"USD", none, none⟩, 5⟩, ⟨⟨"EUR", none, none⟩, 3⟩])) ++
          [String.intercalate "\n<br/>" (residual.map positionStr)]) ∧
      List.Perm [⟨⟨"USD", none, none⟩, 5⟩, ⟨⟨"EUR", none, none⟩, 3⟩]
        ((["USD", "GBP"].filterMap (fun c =>
          getPosition [⟨⟨"USD", none, none⟩, 5⟩, ⟨⟨"EUR", none, none⟩, 3⟩]
            ⟨c, none, none⟩)) ++ residual) :=
  c5_currency_split [⟨⟨"USD", none, none⟩, 5⟩, ⟨⟨"EUR", none, none⟩, 3⟩]
    ["USD", "GBP"] (by decide)

/-! ## View cache (handle_view, web.py lines 173-195)

The wrapper body is

    try:
        view = app.views[viewid]
    except KeyError:
        view = app.views[viewid] = callback(...)

Views are modelled by numbers; the factory is numbered by invocation so
that distinct invocations are observable. -/

/-- The cache slot for one view id together with the cross-call counters:
how many views were ever constructed and how many factory invocations
happened. -/
structure CacheState where
  slot : Option Nat
  calls : Nat
deriving DecidableEq, Repr

/-- One sequential execution of the wrapper body for one key: try the
cache; on KeyError invoke the factory and store its result.  The
assignment `app.views[viewid] = callback(...)` evaluates the callback
first, so a raising factory (`none`) leaves the slot unassigned and the
exception propagates (result `none`). -/
def get_or_create (s : CacheState) (factory : Nat → Option Nat) :
    CacheState × Option Nat :=
  match s.slot with
  | some v => (s, some v)
  | none =>
    match factory s.calls with
    | some v => ({ slot := some v, calls := s.calls + 1 }, some v)
    | none => ({ slot := none, calls := s.calls + 1 }, none)

/-! ## Claim C9: factory failures are not memoized -/

/-- C9: if the factory raises during view construction, the cache is left
without an entry for the key (the failure is not memoized) and the
exception propagates; a subsequent lookup for the same key enters the
KeyError branch again and invokes the factory a second time. -/
theorem c9_no_failure_caching (factory : Nat → Option Nat) (h0 : factory 0 = none) :
    (get_or_create ⟨none, 0⟩ factory).1.slot = none ∧
    (get_or_create ⟨none, 0⟩ factory).2 = none ∧
    (get_or_create ⟨none, 0⟩ factory).1.calls = 1 ∧
    (get_or_create (get_or_create ⟨none, 0⟩ factory).1 factory).1.calls = 2 := by
  simp only [get_or_create, h0]
  cases factory 1 <;> simp

/-- Witness for C9 with a factory that always raises. -/
theorem c9_no_failure_caching_witness :
    (get_or_create ⟨none, 0⟩ (fun _ => none)).1.slot = none ∧
    (get_or_create ⟨none, 0⟩ (fun _ => none)).2 = none ∧
    (get_or_create ⟨none, 0⟩ (fun _ => none)).1.calls = 1 ∧
    (get_or_create (get_or_create ⟨none, 0⟩ (fun _ => none)).1 (fun _ => none)).1.calls = 2 :=
  c9_no_failure_caching (fun _ => none) rfl

/-! ## Claim C3: cache construction under concurrent lookups

Two concurrent executions of the wrapper body are modelled as an
interleaving of atomic thread steps.  Each thread performs (1) the dict
lookup — a hit returns the memoized view, a KeyError moves it to the
creation step — then (2) on a miss, the factory call plus the store.  The
factory always succeeds and yields a fresh view id. -/

inductive TPC where
  | start
  | create
  | done
deriving DecidableEq, Repr

structure ThreadSt where
  pc : TPC
  result : Option Nat
deriving DecidableEq, Repr

/-- Shared cache slot, fresh-view counter, factory-invocation counter, and
the two request threads. -/
structure RaceState where
  slot : Option Nat
  nextId : Nat
  calls : Nat
  t1 : ThreadSt
  t2 : ThreadSt
deriving DecidableEq, Repr

/-- One atomic step of a thread running the wrapper body: at `start` the
dict lookup either hits (the thread finishes with the memoized view) or
raises KeyError (the thread moves to `create`); at `create` the factory
runs, its fresh view is stored and returned.  A finished thread does
nothing. -/
def threadStep (slot : Option Nat) (nid calls : Nat) (t : ThreadSt) :
    Option Nat × Nat × Nat × ThreadSt :=
  match t.pc with
  | .start =>
    match slot with
    | some v => (slot, nid, calls, { pc := .done, result := some v })
    | none => (slot, nid, calls, { pc := .create, result := none })
  | .create => (some nid, nid + 1, calls + 1, { pc := .done, result := some nid })
  | .done => (slot, nid, calls, t)

/-- Interleaving: `true` steps thread 1, `false` steps thread 2. -/
def raceStep (s : RaceState) (choice : Bool) : RaceState :=
  if choice then
    let r := threadStep s.slot s.nextId s.calls s.t1
    { slot := r.1, nextId := r.2.1, calls := r.2.2.1, t1 := r.2.2.2, t2 := s.t2 }
  else
    let r := threadStep s.slot s.nextId s.calls s.t2
    { slot := r.1, nextId := r.2.1, calls := r.2.2.1, t1 := s.t1, t2 := r.2.2.2 }

def runSched (s : RaceState) (sched : List Bool) : RaceState :=
  sched.foldl raceStep s

/-- Both threads about to look up the same missing key. -/
def initRace : RaceState :=
  { slot := none, nextId := 0, calls := 0,
    t1 := ⟨TPC.start, none⟩, t2 := ⟨TPC.start, none⟩ }

/-- Counterexample to C3 as stated: the wrapper has no per-key lock, so in
the interleaving where both lookups miss before either stores, both
threads invoke the factory — two invocations for one key, and the two
lookups do not even return the same instance. -/
theorem c3_counterexample :
    (runSched initRace [true, false, true, false]).t1.pc = TPC.done ∧
    (runSched initRace [true, false, true, false]).t2.pc = TPC.done ∧
    (runSched initRace [true, false, true, false]).calls = 2 ∧
    (runSched initRace [true, false, true, false]).t1.result ≠
      (runSched initRace [true, false, true, false]).t2.result := by
  decide

theorem raceStep_done_t1 (s : RaceState) (h : s.t1.pc = TPC.done) :
    raceStep s true = s := by
  simp [raceStep, threadStep, h]

theorem raceStep_done_t2 (s : RaceState) (h : s.t2.pc = TPC.done) :
    raceStep s false = s := by
  simp [raceStep, threadStep, h]

theorem runSched_replicate_t1 (k : Nat) :
    ∀ s : RaceState, s.t1.pc = TPC.done → runSched s (List.replicate k true) = s := by
  induction k with
  | zero => intro s _; rfl
  | succ k ih =>
    intro s h
    rw [List.replicate_succ]
    show runSched (raceStep s true) (List.replicate k true) = s
    rw [raceStep_done_t1 s h]
    exact ih s h

theorem runSched_replicate_t2 (k : Nat) :
    ∀ s : RaceState, s.t2.pc = TPC.done → runSched s (List.replicate k false) = s := by
  induction k with
  | zero => intro s _; rfl
  | succ k ih =>
    intro s h
    rw [List.replicate_succ]
    show runSched (raceStep s false) (List.replicate k false) = s
    rw [raceStep_done_t2 s h]
    exact ih s h

theorem runSched_append (s : RaceState) (a b : List Bool) :
    runSched s (a ++ b) = runSched (runSched s a) b := by
  simp [runSched, List.foldl_append]

/-- C3 amended: the factory is invoked at most once per key only for
serialized executions — when one lookup's check-then-create completes
before the other lookup starts (as under the single-threaded server).
Then the factory runs exactly once and both lookups return the one
memoized instance. -/
theorem c3_serialized_single_construction (m n : Nat) :
    (runSched initRace (List.replicate (m + 2) true ++ List.replicate (n + 2) false)).calls = 1 ∧
    (runSched initRace (List.replicate (m + 2) true ++ List.replicate (n + 2) false)).t1.pc = TPC.done ∧
    (runSched initRace (List.replicate (m + 2) true ++ List.replicate (n + 2) false)).t2.pc = TPC.done ∧
    (runSched initRace (List.replicate (m + 2) true ++ List.replicate (n + 2) false)).t1.result = some 0 ∧
    (runSched initRace (List.replicate (m + 2) true ++ List.replicate (n + 2) false)).t2.result = some 0 := by
  have hsplit : List.replicate (m + 2) true = [true, true] ++ List.replicate m true := by
    rw [List.replicate_succ, List.replicate_succ]
    rfl
  have hsplit2 : List.replicate (n + 2) false = [false, false] ++ List.replicate n false := by
    rw [List.replicate_succ, List.replicate_succ]
    rfl
  have h1 : runSched initRace [true, true] =
      { slot := some 0, nextId := 1, calls := 1,
        t1 := ⟨TPC.done, some 0⟩, t2 := ⟨TPC.start, none⟩ } := rfl
  have hS1 : runSched initRace (List.replicate (m + 2) true) =
      { slot := some 0, nextId := 1, calls := 1,
        t1 := ⟨TPC.done, some 0⟩, t2 := ⟨TPC.start, none⟩ } := by
    rw [hsplit, runSched_append, h1, runSched_replicate_t1 m _ rfl]
  have h2 : runSched
      { slot := some 0, nextId := 1, calls := 1,
        t1 := ⟨TPC.done, some 0⟩, t2 := (⟨TPC.start, none⟩ : ThreadSt) } [false, false] =
      { slot := some 0, nextId := 1, calls := 1,
        t1 := ⟨TPC.done, some 0⟩, t2 := ⟨TPC.done, some 0⟩ } := rfl
  have hS2 : runSched initRace
      (List.replicate (m + 2) true ++ List.replicate (n + 2) false) =
      { slot := some 0, nextId := 1, calls := 1,
        t1 := ⟨TPC.done, some 0⟩, t2 := ⟨TPC.done, some 0⟩ } := by
    rw [runSched_append, hS1, hsplit2, runSched_append, h2, runSched_replicate_t2 n _ rfl]
  rw [hS2]
  exact ⟨rfl, rfl, rfl, rfl, rfl⟩

end Beancount
